import Mathlib

/-!
Verification of the CPM (Critical Path Method) engine of the XEReader
repository (`src/processors/critical_path_calculator.py`, together with the
`Activity`/`Dependency` data model in `src/models/`).

Shallow-embedding conventions:
* Python `datetime` values are modelled as rationals (hours since an arbitrary
  fixed epoch); `timedelta(hours=x)` becomes addition of `x`;
  `(t2 - t1).total_seconds() / 3600` becomes `t2 - t1`.
* Python `float` duration/lag arithmetic is modelled exactly over `ℚ`.
* `datetime.now()` is modelled as an explicit parameter `now : ℚ`.
* The mutable CPM fields that the calculator writes onto `Activity` objects
  are threaded as an explicit state `St : String → CPMv` keyed by task code;
  the state is initialised from the fields carried by the input activities,
  exactly as the Python objects carry them into `calculate()`.
* `networkx` operations are embedded by their documented semantics:
  node/edge construction (`DiGraph.add_node` / `add_edge`), predecessor and
  successor sets, in/out degree tests, topological sort (Kahn's algorithm),
  cycle detection (a cycle exists iff no topological order exists; proven
  below as `has_cycles_iff_cycle`), and `all_simple_paths` (all duplicate-free
  directed paths from a source to a target, including the single-node path
  when source = target).
-/

namespace XER

/-- `src/models/dependency.py`, class `Dependency`: one endpoint of a
dependency relationship, as stored on an activity's `successors` /
`predecessors` lists. -/
structure Dependency where
  task_code : String
  dependency_type : String
  lag_hours : ℚ
  deriving DecidableEq, Repr

/-- `src/models/activity.py`, class `Activity`: the fields the CPM engine
reads (`task_code`, `task_name`, `planned_start_date`, `duration_hours`,
`successors`) plus the mutable CPM fields the engine writes
(`early_start`, `early_finish`, `late_start`, `late_finish`,
`total_float_hours`), all nullable as in the dataclass. -/
structure Activity where
  task_code : String
  task_name : String
  planned_start_date : Option ℚ
  planned_end_date : Option ℚ
  predecessors : List Dependency
  successors : List Dependency
  duration_hours : ℚ
  early_start : Option ℚ
  early_finish : Option ℚ
  late_start : Option ℚ
  late_finish : Option ℚ
  total_float_hours : Option ℚ
  deriving DecidableEq, Repr

/-- A directed dependency edge of the network graph, as added by
`_build_graph`: `add_edge(activity.task_code, successor.task_code,
lag=successor.lag_hours, ...)`. -/
structure Edge where
  src : String
  dst : String
  lag : ℚ
  deriving DecidableEq, Repr

/-- The edge list built by `_build_graph`: for every activity, one edge to
each entry of its `successors` list. -/
def edgesOf (acts : List Activity) : List Edge :=
  acts.flatMap fun a => a.successors.map fun d => ⟨a.task_code, d.task_code, d.lag_hours⟩

/-- The node list built by `_build_graph`: one node per activity
(`add_node(activity.task_code, ...)`). -/
def nodesOf (acts : List Activity) : List String :=
  acts.map (·.task_code)

/-- `task_code_to_activity` lookup / the `activity` node attribute. -/
def actOf (acts : List Activity) (c : String) : Option Activity :=
  acts.find? fun a => a.task_code == c

/-- Is there an edge `u → v` in the edge list? -/
def hasEdgeB (es : List Edge) (u v : String) : Bool :=
  es.any fun e => e.src == u && e.dst == v

/-- `graph.predecessors n`: the distinct sources of edges into `n`. -/
def predsOf (es : List Edge) (n : String) : List String :=
  ((es.filter fun e => e.dst == n).map (·.src)).dedup

/-- `graph.successors n`: the distinct targets of edges out of `n`. -/
def succsOf (es : List Edge) (n : String) : List String :=
  ((es.filter fun e => e.src == n).map (·.dst)).dedup

/-- `graph[u][v].get('lag', 0)`: the lag attribute of the edge `u → v`;
repeated `add_edge(u, v, ...)` calls overwrite the attribute, so the last
matching edge wins. -/
def lagOf (es : List Edge) (u v : String) : ℚ :=
  ((((es.filter fun e => e.src == u && e.dst == v)).getLast?).map (·.lag)).getD 0

/-- One step of Kahn's algorithm: pick a node of `remaining` that has no
incoming edge from a node of `remaining`. -/
def pickSource (es : List Edge) (remaining : List String) : Option String :=
  remaining.find? fun n => !(remaining.any fun m => hasEdgeB es m n)

/-- Kahn's algorithm with explicit fuel: repeatedly remove a source node.
Returns `none` when no source exists while nodes remain (i.e. the graph has
a cycle). -/
def topoAux (es : List Edge) : Nat → List String → List String → Option (List String)
  | 0, acc, remaining => if remaining.isEmpty then some acc.reverse else none
  | fuel + 1, acc, remaining =>
    if remaining.isEmpty then some acc.reverse
    else
      match pickSource es remaining with
      | none => none
      | some n => topoAux es fuel (n :: acc) (remaining.erase n)

/-- `nx.topological_sort`: a topological order of the graph, or `none` when
the graph is cyclic. -/
def topoSort (nodes : List String) (es : List Edge) : Option (List String) :=
  topoAux es nodes.length [] nodes

/-- `CriticalPathCalculator.has_cycles`: `nx.find_cycle` finds a directed
cycle iff one exists, which holds iff the graph admits no topological order;
we embed the check as failure of Kahn's algorithm and prove the equivalence
with explicit cycle existence in `has_cycles_iff_cycle` below. -/
def has_cycles (nodes : List String) (es : List Edge) : Bool :=
  (topoSort nodes es).isNone

/-- The edge relation of the graph, as a proposition. -/
def EdgeRel (es : List Edge) (u v : String) : Prop :=
  hasEdgeB es u v = true

/-- The graph contains a directed cycle: some node reaches itself through at
least one edge. -/
def HasCycleIn (nodes : List String) (es : List Edge) : Prop :=
  ∃ n ∈ nodes, Relation.TransGen (EdgeRel es) n n

/-- The per-task-code record of mutable CPM fields written by the engine. -/
structure CPMv where
  early_start : Option ℚ
  early_finish : Option ℚ
  late_start : Option ℚ
  late_finish : Option ℚ
  total_float_hours : Option ℚ
  deriving DecidableEq, Repr

/-- The engine's mutable state: the CPM fields per task code. -/
def St := String → CPMv

/-- The state carried into `calculate()` by the input `Activity` objects. -/
def initSt (acts : List Activity) : St := fun c =>
  match actOf acts c with
  | some a => ⟨a.early_start, a.early_finish, a.late_start, a.late_finish, a.total_float_hours⟩
  | none => ⟨none, none, none, none, none⟩

/-- `activity.early_start = u; activity.early_finish = v`. -/
def setEarly (n : String) (u v : ℚ) (st : St) : St := fun c =>
  if c = n then { st c with early_start := some u, early_finish := some v } else st c

/-- `activity.late_finish = u; activity.late_start = v`. -/
def setLate (n : String) (u v : ℚ) (st : St) : St := fun c =>
  if c = n then { st c with late_finish := some u, late_start := some v } else st c

/-- `activity.total_float_hours = v`. -/
def setFloat (n : String) (v : Option ℚ) (st : St) : St := fun c =>
  if c = n then { st c with total_float_hours := v } else st c

/-- `_forward_pass`, project start: the minimum `planned_start_date` over
activities that have one, with `datetime.now()` as the default. -/
def projectStart (acts : List Activity) (now : ℚ) : ℚ :=
  match acts.filterMap (·.planned_start_date) with
  | [] => now
  | x :: xs => xs.foldl min x

/-- The body of the predecessor loop of `_forward_pass`: skip predecessors
whose `early_finish` is unset, otherwise keep the larger of the accumulator
and `early_finish + lag`. -/
def fwdCand (es : List Edge) (st : St) (n : String) (m : ℚ) (p : String) : ℚ :=
  match (st p).early_finish with
  | none => m
  | some f => if m < f + lagOf es p n then f + lagOf es p n else m

/-- The early start computed by `_forward_pass` for node `n`: the project
start for start nodes, otherwise the predecessor fold starting from the
project start. -/
def forwardES (es : List Edge) (ps : ℚ) (st : St) (n : String) : ℚ :=
  if (predsOf es n).isEmpty then ps
  else (predsOf es n).foldl (fwdCand es st n) ps

/-- One iteration of the `_forward_pass` loop at node `n`: set
`early_start` and `early_finish = early_start + duration`.  (The `none`
branch is unreachable when every graph node is an activity code.) -/
def forwardStep (acts : List Activity) (es : List Edge) (ps : ℚ) (st : St) (n : String) : St :=
  match actOf acts n with
  | none => st
  | some a => setEarly n (forwardES es ps st n) (forwardES es ps st n + a.duration_hours) st

/-- `_forward_pass`: fold the step over the traversal order. -/
def forwardPass (acts : List Activity) (es : List Edge) (ps : ℚ) (order : List String)
    (st : St) : St :=
  order.foldl (forwardStep acts es ps) st

/-- `_backward_pass`, project end: the maximum `early_finish` over activities
that have one, with `datetime.now()` as the default. -/
def projectEnd (acts : List Activity) (st : St) (now : ℚ) : ℚ :=
  match acts.filterMap fun a => (st a.task_code).early_finish with
  | [] => now
  | x :: xs => xs.foldl max x

/-- The body of the successor loop of `_backward_pass`: skip successors whose
`late_start` is unset, otherwise keep the smaller of the accumulator and
`late_start - lag`. -/
def bwdCand (es : List Edge) (st : St) (n : String) (m : ℚ) (s : String) : ℚ :=
  match (st s).late_start with
  | none => m
  | some l => if l - lagOf es n s < m then l - lagOf es n s else m

/-- The late finish computed by `_backward_pass` for node `n`. -/
def backwardLF (es : List Edge) (pe : ℚ) (st : St) (n : String) : ℚ :=
  if (succsOf es n).isEmpty then pe
  else (succsOf es n).foldl (bwdCand es st n) pe

/-- One iteration of the `_backward_pass` loop at node `n`: set
`late_finish` and `late_start = late_finish - duration`. -/
def backwardStep (acts : List Activity) (es : List Edge) (pe : ℚ) (st : St) (n : String) : St :=
  match actOf acts n with
  | none => st
  | some a => setLate n (backwardLF es pe st n) (backwardLF es pe st n - a.duration_hours) st

/-- `_backward_pass`: fold the step over the reversed traversal order. -/
def backwardPass (acts : List Activity) (es : List Edge) (pe : ℚ) (order : List String)
    (st : St) : St :=
  order.foldl (backwardStep acts es pe) st

/-- One iteration of `_calculate_total_float`: `total_float = late_start -
early_start` when both are set, else `0.0`. -/
def floatStep (st : St) (a : Activity) : St :=
  match (st a.task_code).late_start, (st a.task_code).early_start with
  | some ls, some e => setFloat a.task_code (some (ls - e)) st
  | _, _ => setFloat a.task_code (some 0) st

/-- `_calculate_total_float`: fold over the activity list. -/
def calcTotalFloat (acts : List Activity) (st : St) : St :=
  acts.foldl floatStep st

/-- `_identify_critical_activities`: activities whose `total_float_hours` is
set and at most `0.01`. -/
def identifyCritical (acts : List Activity) (st : St) : List Activity :=
  acts.filter fun a =>
    match (st a.task_code).total_float_hours with
    | some f => decide (f ≤ 1 / 100)
    | none => false

/-- `nx.all_simple_paths` (DFS with the visited set `cur :: visited`):
all duplicate-free directed paths from `cur` to `target`, of at most `fuel`
nodes.  When `cur = target` the single-node path is produced, as in
networkx. -/
def simplePathsAux (es : List Edge) : Nat → List String → String → String → List (List String)
  | 0, _, _, _ => []
  | fuel + 1, visited, cur, target =>
    if cur = target then [[cur]]
    else
      ((succsOf es cur).filter fun m => !((cur :: visited).contains m)).flatMap
        fun m => (simplePathsAux es fuel (cur :: visited) m target).map (cur :: ·)

/-- `nx.all_simple_paths(subgraph, s, t)`. -/
def simplePaths (es : List Edge) (fuel : Nat) (s t : String) : List (List String) :=
  simplePathsAux es fuel [] s t

/-- `sum(task_code_to_activity[code].duration_hours for code in path)`. -/
def pathDuration (acts : List Activity) (p : List String) : ℚ :=
  (p.map fun c => ((actOf acts c).map (·.duration_hours)).getD 0).sum

/-- Placeholder activity for total lookup (`task_code_to_activity[code]`
always succeeds on codes of critical activities). -/
def dummyActivity : Activity :=
  ⟨"", "", none, none, [], [], 0, none, none, none, none, none⟩

/-- `task_code_to_activity[code]` as a total function. -/
def codeToAct (acts : List Activity) (c : String) : Activity :=
  (actOf acts c).getD dummyActivity

/-- The node set of `graph.subgraph(critical_codes)`: graph nodes that carry
a critical code. -/
def subNodesOf (nodes : List String) (codes : List String) : List String :=
  nodes.filter fun n => codes.contains n

/-- The edge set of `graph.subgraph(critical_codes)`: edges between two
critical codes. -/
def subEdgesOf (es : List Edge) (codes : List String) : List Edge :=
  es.filter fun e => codes.contains e.src && codes.contains e.dst

/-- Source nodes of the induced critical subgraph (`in_degree == 0`). -/
def subStartsOf (nodes : List String) (es : List Edge) (codes : List String) : List String :=
  (subNodesOf nodes codes).filter fun n => (predsOf (subEdgesOf es codes) n).isEmpty

/-- Sink nodes of the induced critical subgraph (`out_degree == 0`). -/
def subSinksOf (nodes : List String) (es : List Edge) (codes : List String) : List String :=
  (subNodesOf nodes codes).filter fun n => (succsOf (subEdgesOf es codes) n).isEmpty

/-- The `all_paths` list of `_find_critical_paths`: all simple paths from
every subgraph source to every subgraph sink. -/
def allPathsOf (nodes : List String) (es : List Edge) (codes : List String) :
    List (List String) :=
  (subStartsOf nodes es codes).flatMap fun s => (subSinksOf nodes es codes).flatMap fun t =>
    simplePaths (subEdgesOf es codes) (subNodesOf nodes codes).length s t

/-- `max(path_durations)` over the enumerated paths (`0` when none). -/
def maxPathDuration (acts : List Activity) (nodes : List String) (es : List Edge)
    (codes : List String) : ℚ :=
  match (allPathsOf nodes es codes).map (pathDuration acts) with
  | [] => 0
  | d :: ds => ds.foldl max d

/-- `_find_critical_paths`: induced critical subgraph, its sources and sinks,
enumeration of all source-to-sink simple paths, and selection of the paths
within `0.01` of the maximum duration; falls back to `[critical_activities]`
when there is no source or no sink, or when no path was found. -/
def findCriticalPaths (acts : List Activity) (es : List Edge) (nodes : List String)
    (criticals : List Activity) : List (List Activity) :=
  if (subStartsOf nodes es (criticals.map (·.task_code))).isEmpty ||
      (subSinksOf nodes es (criticals.map (·.task_code))).isEmpty then
    [criticals]
  else if (allPathsOf nodes es (criticals.map (·.task_code))).isEmpty then [criticals]
  else
    ((allPathsOf nodes es (criticals.map (·.task_code))).filter fun p =>
        decide (|pathDuration acts p -
          maxPathDuration acts nodes es (criticals.map (·.task_code))| < 1 / 100)).map
      fun p => p.map (codeToAct acts)

/-- `_calculate_project_duration`: `max(early_finish) - min(early_start)`
over all activities whose fields are set, `0.0` on degenerate inputs. -/
def projectDuration (acts : List Activity) (st : St) : ℚ :=
  if acts.isEmpty then 0
  else
    match acts.filterMap (fun a => (st a.task_code).early_start),
        acts.filterMap (fun a => (st a.task_code).early_finish) with
    | [], _ => 0
    | _, [] => 0
    | e :: es1, f :: fs1 => fs1.foldl max f - es1.foldl min e

/-- The state after forward pass, backward pass and float computation, i.e.
the CPM fields carried by the activities after `calculate()` ran its three
passes. -/
def finalState (acts : List Activity) (now : ℚ) : St :=
  let es := edgesOf acts
  let nodes := nodesOf acts
  let order := (topoSort nodes es).getD nodes
  let bOrder := match topoSort nodes es with
    | some l => l.reverse
    | none => nodes.reverse
  let st1 := forwardPass acts es (projectStart acts now) order (initSt acts)
  let st2 := backwardPass acts es (projectEnd acts st1 now) bOrder st1
  calcTotalFloat acts st2

/-- The message of the `ValueError` raised by `calculate()` on cycles. -/
def cycleErrorMsg : String :=
  "Graph contains cycles - cannot calculate critical path"

/-- `CriticalPathCalculator.calculate`: build the graph, gate on cycles,
run the passes, and return the critical paths and the project duration.
The `ValueError` raise is modelled by the `Except.error` branch. -/
def calculate (acts : List Activity) (now : ℚ) :
    Except String (List (List Activity) × ℚ) :=
  if has_cycles (nodesOf acts) (edgesOf acts) then .error cycleErrorMsg
  else if (identifyCritical acts (finalState acts now)).isEmpty then .ok ([], 0)
  else .ok (findCriticalPaths acts (edgesOf acts) (nodesOf acts)
      (identifyCritical acts (finalState acts now)),
    projectDuration acts (finalState acts now))

/-- `Activity.is_critical` (`src/models/activity.py`): `False` when
`total_float_hours` is `None`, else `total_float_hours <= 0`. -/
def Activity.is_critical (a : Activity) : Bool :=
  match a.total_float_hours with
  | none => false
  | some f => decide (f ≤ 0)

/-- Well-formed calculator input: distinct task codes (unique activity
identifiers) and every dependency successor code names an activity, so the
graph's nodes are exactly the activity codes. -/
def WellFormed (acts : List Activity) : Prop :=
  (nodesOf acts).Nodup ∧ ∀ e ∈ edgesOf acts, e.dst ∈ nodesOf acts

instance (acts : List Activity) : Decidable (WellFormed acts) := by
  unfold WellFormed; infer_instance

/-- The `early_start` value of a task code, defaulting to `0` (used only
where the field is proven to be set). -/
def esD (st : St) (c : String) : ℚ := ((st c).early_start).getD 0

/-- The `early_finish` value of a task code, defaulting to `0`. -/
def efD (st : St) (c : String) : ℚ := ((st c).early_finish).getD 0

/-- The `late_start` value of a task code, defaulting to `0`. -/
def lsD (st : St) (c : String) : ℚ := ((st c).late_start).getD 0

/-- The `late_finish` value of a task code, defaulting to `0`. -/
def lfD (st : St) (c : String) : ℚ := ((st c).late_finish).getD 0

/-- The `total_float_hours` value of a task code, defaulting to `0`. -/
def tfD (st : St) (c : String) : ℚ := ((st c).total_float_hours).getD 0

/-- The early-start value the forward pass assigns to node `n`, expressed
over a state `st` supplying the predecessors' `early_finish` values: the
project start for start nodes, otherwise the maximum of the project start
and `early_finish + lag` over the predecessors. -/
def fwdESval (es : List Edge) (ps : ℚ) (st : St) (n : String) : ℚ :=
  if (predsOf es n).isEmpty then ps
  else ((predsOf es n).map fun p => efD st p + lagOf es p n).foldl max ps

/-- The late-finish value the backward pass assigns to node `n`: the project
end for end nodes, otherwise the minimum of the project end and
`late_start - lag` over the successors. -/
def bwdLFval (es : List Edge) (pe : ℚ) (st : St) (n : String) : ℚ :=
  if (succsOf es n).isEmpty then pe
  else ((succsOf es n).map fun s => lsD st s - lagOf es n s).foldl min pe

/-- A duplicate-free directed path in the given edge list. -/
def IsSimplePath (es : List Edge) (q : List String) : Prop :=
  q ≠ [] ∧ q.Nodup ∧ q.Chain' (EdgeRel es)

/-- A simple source-to-sink path of the induced critical subgraph: a
duplicate-free task-code sequence chained along the subgraph's edges that
starts at a subgraph source and ends at a subgraph sink (a single node that
is both source and sink is such a path, as in `nx.all_simple_paths` with
equal endpoints). -/
def IsCriticalSourceSinkPath (nodes : List String) (es : List Edge)
    (codes : List String) (q : List String) : Prop :=
  q.Nodup ∧ q.Chain' (EdgeRel (subEdgesOf es codes)) ∧
    (∃ s ∈ subStartsOf nodes es codes, q.head? = some s) ∧
    (∃ t ∈ subSinksOf nodes es codes, q.getLast? = some t)

/-- The Python `Activity` object after the engine wrote the CPM state back
onto it (in the source the fields are mutated in place). -/
def withState (st : St) (a : Activity) : Activity :=
  { a with
    early_start := (st a.task_code).early_start
    early_finish := (st a.task_code).early_finish
    late_start := (st a.task_code).late_start
    late_finish := (st a.task_code).late_finish
    total_float_hours := (st a.task_code).total_float_hours }

/-- The observable signature of a `calculate()` result: the critical paths
as task-code sequences plus the project duration (activity records carry
the mutable CPM fields, so path identity is their code sequence, as in the
source where the same mutated objects are returned). -/
def resultSig : Except String (List (List Activity) × ℚ) →
    Except String (List (List String) × ℚ)
  | .error e => .error e
  | .ok (paths, d) => .ok (paths.map (List.map Activity.task_code), d)

/-- Shift every datetime-valued CPM field by `δ` hours, keeping the float:
the effect on the computed schedule of moving the wall clock. -/
def shiftSt (δ : ℚ) (st : St) : St := fun c =>
  ⟨((st c).early_start).map (· + δ), ((st c).early_finish).map (· + δ),
    ((st c).late_start).map (· + δ), ((st c).late_finish).map (· + δ),
    (st c).total_float_hours⟩

/-- Helper to build concrete example activities: code, planned start,
duration and successor list (code, lag). -/
def mkAct (c : String) (ps : Option ℚ) (dur : ℚ) (succs : List (String × ℚ)) : Activity :=
  ⟨c, c, ps, none, [], succs.map fun sl => ⟨sl.1, "FS", sl.2⟩, dur,
    none, none, none, none, none⟩

/-- Example input: three-activity chain A → B → C, 8-hour durations. -/
def chainActs : List Activity :=
  [mkAct "A" (some 0) 8 [("B", 0)], mkAct "B" none 8 [("C", 0)], mkAct "C" none 8 []]

/-- Example input: two-activity cycle A → B → A. -/
def cycActs : List Activity :=
  [mkAct "A" (some 0) 8 [("B", 0)], mkAct "B" none 8 [("A", 0)]]

/-- Example input: zero-duration activities A → B with lag −5. -/
def negLagActs : List Activity :=
  [mkAct "A" (some 0) 0 [("B", -5)], mkAct "B" none 0 []]

/-- Example input: a single activity with negative duration (planned end
before planned start yields a negative `duration_hours`). -/
def negDurActs : List Activity :=
  [mkAct "X" (some 0) (-1) []]

/-! ### Basic graph lemmas -/

theorem hasEdgeB_iff {es : List Edge} {u v : String} :
    hasEdgeB es u v = true ↔ ∃ e ∈ es, e.src = u ∧ e.dst = v := by
  simp [hasEdgeB, List.any_eq_true]

theorem mem_predsOf {es : List Edge} {p n : String} :
    p ∈ predsOf es n ↔ hasEdgeB es p n = true := by
  simp only [predsOf, List.mem_dedup, List.mem_map, List.mem_filter, hasEdgeB_iff]
  constructor
  · rintro ⟨e, ⟨he, hd⟩, hs⟩
    exact ⟨e, he, hs, by simpa using hd⟩
  · rintro ⟨e, he, hs, hd⟩
    exact ⟨e, ⟨he, by simpa using hd⟩, hs⟩

theorem mem_succsOf {es : List Edge} {n s : String} :
    s ∈ succsOf es n ↔ hasEdgeB es n s = true := by
  simp only [succsOf, List.mem_dedup, List.mem_map, List.mem_filter, hasEdgeB_iff]
  constructor
  · rintro ⟨e, ⟨he, hs⟩, hd⟩
    exact ⟨e, he, by simpa using hs, hd⟩
  · rintro ⟨e, he, hs, hd⟩
    exact ⟨e, ⟨he, by simpa using hs⟩, hd⟩

theorem edgesOf_src_mem {acts : List Activity} {e : Edge} (he : e ∈ edgesOf acts) :
    e.src ∈ nodesOf acts := by
  simp only [edgesOf, List.mem_flatMap, List.mem_map] at he
  obtain ⟨a, ha, d, _, rfl⟩ := he
  exact List.mem_map.2 ⟨a, ha, rfl⟩

theorem actOf_eq_some_iff {acts : List Activity} {c : String} {a : Activity}
    (h : actOf acts c = some a) : a ∈ acts ∧ a.task_code = c := by
  refine ⟨List.mem_of_find?_eq_some h, ?_⟩
  have := List.find?_some h
  simpa using this

theorem actOf_isSome_of_mem {acts : List Activity} {c : String}
    (h : c ∈ nodesOf acts) : ∃ a, actOf acts c = some a ∧ a.task_code = c := by
  simp only [nodesOf, List.mem_map] at h
  obtain ⟨a, ha, rfl⟩ := h
  have hex : (acts.find? fun x => x.task_code == a.task_code).isSome := by
    rw [List.find?_isSome]
    exact ⟨a, ha, by simp⟩
  obtain ⟨b, hb⟩ := Option.isSome_iff_exists.1 hex
  exact ⟨b, hb, (actOf_eq_some_iff hb).2⟩

/-! ### Topological sort: basic properties -/

theorem pickSource_mem {es : List Edge} {r : List String} {n : String}
    (h : pickSource es r = some n) : n ∈ r :=
  List.mem_of_find?_eq_some h

theorem pickSource_no_in {es : List Edge} {r : List String} {n : String}
    (h : pickSource es r = some n) : ∀ m ∈ r, hasEdgeB es m n = false := by
  have hp := List.find?_some h
  simp only [Bool.not_eq_true', List.any_eq_false] at hp
  exact fun m hm => by simpa using hp m hm

theorem pickSource_none {es : List Edge} {r : List String}
    (h : pickSource es r = none) : ∀ n ∈ r, ∃ m ∈ r, EdgeRel es m n := by
  intro n hn
  have hp := List.find?_eq_none.1 h n hn
  simp only [Bool.not_eq_true', Bool.not_eq_false, List.any_eq_true] at hp
  obtain ⟨m, hm, he⟩ := hp
  exact ⟨m, hm, he⟩

theorem topoAux_some_eq {es : List Edge} :
    ∀ (fuel : Nat) (acc remaining l : List String),
      topoAux es fuel acc remaining = some l →
      ∃ l2, l = acc.reverse ++ l2 ∧ l2.Perm remaining := by
  intro fuel
  induction fuel with
  | zero =>
    intro acc remaining l h
    simp only [topoAux] at h
    split at h
    · rename_i hr
      refine ⟨[], by simpa using h.symm, ?_⟩
      rw [List.isEmpty_iff.1 hr]
    · exact absurd h (by simp)
  | succ fuel ih =>
    intro acc remaining l h
    simp only [topoAux] at h
    split at h
    · rename_i hr
      refine ⟨[], by simpa using h.symm, ?_⟩
      rw [List.isEmpty_iff.1 hr]
    · rename_i hr
      cases hp : pickSource es remaining with
      | none => rw [hp] at h; exact absurd h (by simp)
      | some n =>
        rw [hp] at h
        obtain ⟨l2, hl, hperm⟩ := ih (n :: acc) (remaining.erase n) l h
        refine ⟨n :: l2, ?_, ?_⟩
        · rw [hl]; simp
        · exact ((hperm.cons n).trans (List.perm_cons_erase (pickSource_mem hp)).symm)

theorem topoSort_perm {nodes : List String} {es : List Edge} {l : List String}
    (h : topoSort nodes es = some l) : l.Perm nodes := by
  obtain ⟨l2, hl, hperm⟩ := topoAux_some_eq nodes.length [] nodes l h
  simpa [hl] using hperm

theorem append_singleton_split {α : Type} {ys l₁ l₂ : List α} {n x : α}
    (h : ys ++ [n] = l₁ ++ x :: l₂) :
    (l₁ = ys ∧ x = n ∧ l₂ = []) ∨ ∃ l₂', l₂ = l₂' ++ [n] ∧ ys = l₁ ++ x :: l₂' := by
  rcases List.eq_nil_or_concat l₂ with h2 | ⟨l₂', b, rfl⟩
  · subst h2
    have := List.append_inj' h (by simp)
    exact Or.inl ⟨this.1.symm, by simpa using (this.2).symm, rfl⟩
  · rw [List.concat_eq_append] at h ⊢
    have h' : ys ++ [n] = (l₁ ++ x :: l₂') ++ [b] := by
      rw [h]; simp
    have := List.append_inj' h' (by simp)
    obtain ⟨h1, h2⟩ := this
    refine Or.inr ⟨l₂', ?_, h1⟩
    simp at h2
    rw [h2]

theorem topoAux_ord {es : List Edge} {nodes : List String} :
    ∀ (fuel : Nat) (acc remaining l : List String),
      topoAux es fuel acc remaining = some l →
      (∀ u ∈ nodes, u ∈ acc ∨ u ∈ remaining) →
      (∀ x l₁ l₂, acc.reverse = l₁ ++ x :: l₂ →
        ∀ u, hasEdgeB es u x = true → u ∈ nodes → u ∈ l₁) →
      ∀ x l₁ l₂, l = l₁ ++ x :: l₂ → ∀ u, hasEdgeB es u x = true → u ∈ nodes → u ∈ l₁ := by
  intro fuel
  induction fuel with
  | zero =>
    intro acc remaining l h hcov hprev
    simp only [topoAux] at h
    split at h
    · intro x l₁ l₂ hl u he hu
      exact hprev x l₁ l₂ (by rw [← hl]; exact (Option.some_injective _ h).symm ▸ rfl) u he hu
    · exact absurd h (by simp)
  | succ fuel ih =>
    intro acc remaining l h hcov hprev
    simp only [topoAux] at h
    split at h
    · intro x l₁ l₂ hl u he hu
      exact hprev x l₁ l₂ (by rw [← hl]; exact (Option.some_injective _ h).symm ▸ rfl) u he hu
    · rename_i hr
      cases hp : pickSource es remaining with
      | none => rw [hp] at h; exact absurd h (by simp)
      | some n =>
        rw [hp] at h
        refine ih (n :: acc) (remaining.erase n) l h ?_ ?_
        · intro u hu
          rcases hcov u hu with hua | hur
          · exact Or.inl (List.mem_cons_of_mem _ hua)
          · by_cases hun : u = n
            · exact Or.inl (hun ▸ List.mem_cons_self _ _)
            · exact Or.inr ((List.mem_erase_of_ne hun).2 hur)
        · intro x l₁ l₂ hsplit u he hu
          rw [List.reverse_cons] at hsplit
          rcases append_singleton_split hsplit with ⟨hl₁, hx, -⟩ | ⟨l₂', -, hys⟩
          · subst hx
            rcases hcov u hu with hua | hur
            · rw [hl₁]; simpa using hua
            · exact absurd (pickSource_no_in hp u hur) (by simp [he])
          · exact hprev x l₁ l₂' hys u he hu

theorem topoSort_ord {nodes : List String} {es : List Edge} {l : List String}
    (h : topoSort nodes es = some l) :
    ∀ x l₁ l₂, l = l₁ ++ x :: l₂ → ∀ u, hasEdgeB es u x = true → u ∈ nodes → u ∈ l₁ := by
  refine topoAux_ord nodes.length [] nodes l h (fun u hu => Or.inr hu) ?_
  intro x l₁ l₂ hsplit
  simp at hsplit

/-! ### Topological order excludes cycles, Kahn failure implies a cycle -/

theorem topoSort_before {nodes : List String} {es : List Edge} {l : List String}
    (hnd : nodes.Nodup) (h : topoSort nodes es = some l) {u v : String}
    (he : hasEdgeB es u v = true) (hu : u ∈ nodes) (hv : v ∈ nodes) :
    l.indexOf u < l.indexOf v := by
  have hperm := topoSort_perm h
  have hl : l.Nodup := hperm.symm.nodup hnd
  have hvl : v ∈ l := hperm.mem_iff.2 hv
  obtain ⟨l₁, l₂, rfl⟩ := List.append_of_mem hvl
  have hu₁ : u ∈ l₁ := topoSort_ord h v l₁ l₂ rfl u he hu
  have hvnot : v ∉ l₁ := by
    intro hmem
    rw [List.nodup_append] at hl
    exact hl.2.2 hmem (List.mem_cons_self _ _)
  rw [List.indexOf_append_of_mem hu₁, List.indexOf_append_of_not_mem hvnot]
  have h1 : l₁.indexOf u < l₁.length := List.indexOf_lt_length.2 hu₁
  have h2 : (v :: l₂).indexOf v = 0 := List.indexOf_cons_self v l₂
  omega

theorem transGen_before {nodes : List String} {es : List Edge} {l : List String}
    (hnd : nodes.Nodup) (h : topoSort nodes es = some l)
    (hsrc : ∀ e ∈ es, e.src ∈ nodes) (hdst : ∀ e ∈ es, e.dst ∈ nodes)
    {u v : String} (ht : Relation.TransGen (EdgeRel es) u v) :
    u ∈ nodes ∧ v ∈ nodes ∧ l.indexOf u < l.indexOf v := by
  induction ht with
  | single he =>
    obtain ⟨e, hee, h1, h2⟩ := hasEdgeB_iff.1 he
    have hu : u ∈ nodes := h1 ▸ hsrc e hee
    have hv : _ ∈ nodes := h2 ▸ hdst e hee
    exact ⟨hu, hv, topoSort_before hnd h he hu hv⟩
  | tail ht' he ih =>
    obtain ⟨e, hee, h1, h2⟩ := hasEdgeB_iff.1 he
    obtain ⟨hu, hb, hlt⟩ := ih
    have hc : _ ∈ nodes := h2 ▸ hdst e hee
    exact ⟨hu, hc, hlt.trans (topoSort_before hnd h he hb hc)⟩

theorem cycle_topoSort_none {nodes : List String} {es : List Edge} (hnd : nodes.Nodup)
    (hsrc : ∀ e ∈ es, e.src ∈ nodes) (hdst : ∀ e ∈ es, e.dst ∈ nodes)
    (hc : HasCycleIn nodes es) : topoSort nodes es = none := by
  cases htopo : topoSort nodes es with
  | none => rfl
  | some l =>
    obtain ⟨n, _, ht⟩ := hc
    exact absurd (transGen_before hnd htopo hsrc hdst ht).2.2 (lt_irrefl _)

theorem cycle_of_no_source {es : List Edge} {r : List String}
    (hall : ∀ n ∈ r, ∃ m ∈ r, EdgeRel es m n) :
    ∀ (fuel : Nat) (cur : String) (visited : List String),
      cur ∈ r → (∀ x ∈ visited, x ∈ r) → (cur :: visited).Nodup →
      (∀ x ∈ visited, Relation.TransGen (EdgeRel es) cur x) →
      r.length ≤ fuel + (cur :: visited).length →
      ∃ n ∈ r, Relation.TransGen (EdgeRel es) n n := by
  intro fuel
  induction fuel with
  | zero =>
    intro cur visited hcur hvis hnd hchain hlen
    obtain ⟨m, hm, he⟩ := hall cur hcur
    have hsub : List.Subperm (cur :: visited) r := by
      refine List.subperm_of_subset hnd ?_
      intro x hx
      rcases List.mem_cons.1 hx with rfl | hx
      · exact hcur
      · exact hvis x hx
    have hperm : (cur :: visited).Perm r := hsub.perm_of_length_le (by simpa using hlen)
    have hmcv : m ∈ cur :: visited := hperm.mem_iff.2 hm
    rcases List.mem_cons.1 hmcv with rfl | hmv
    · exact ⟨m, hm, Relation.TransGen.single he⟩
    · exact ⟨m, hm, Relation.TransGen.head he (hchain m hmv)⟩
  | succ fuel ih =>
    intro cur visited hcur hvis hnd hchain hlen
    obtain ⟨m, hm, he⟩ := hall cur hcur
    by_cases hmcv : m ∈ cur :: visited
    · rcases List.mem_cons.1 hmcv with rfl | hmv
      · exact ⟨m, hm, Relation.TransGen.single he⟩
      · exact ⟨m, hm, Relation.TransGen.head he (hchain m hmv)⟩
    · refine ih m (cur :: visited) hm ?_ (List.nodup_cons.2 ⟨hmcv, hnd⟩) ?_ ?_
      · intro x hx
        rcases List.mem_cons.1 hx with rfl | hx
        · exact hcur
        · exact hvis x hx
      · intro x hx
        rcases List.mem_cons.1 hx with rfl | hx
        · exact Relation.TransGen.single he
        · exact Relation.TransGen.head he (hchain x hx)
      · simp only [List.length_cons] at hlen ⊢
        omega

theorem topoAux_none_cycle {es : List Edge} :
    ∀ (fuel : Nat) (acc remaining : List String),
      topoAux es fuel acc remaining = none →
      remaining.length ≤ fuel →
      ∃ n ∈ remaining, Relation.TransGen (EdgeRel es) n n := by
  intro fuel
  induction fuel with
  | zero =>
    intro acc remaining h hlen
    have : remaining = [] := List.length_eq_zero.1 (Nat.le_zero.1 hlen)
    subst this
    simp [topoAux] at h
  | succ fuel ih =>
    intro acc remaining h hlen
    simp only [topoAux] at h
    split at h
    · simp at h
    · rename_i hr
      cases hp : pickSource es remaining with
      | none =>
        have hne : remaining ≠ [] := fun hh => hr (by simp [hh])
        obtain ⟨c, hc⟩ := List.exists_mem_of_ne_nil remaining hne
        refine cycle_of_no_source (pickSource_none hp) remaining.length c []
          hc (by simp) (by simp) (by simp) ?_
        simp
      | some n =>
        rw [hp] at h
        have hmem := pickSource_mem hp
        have hpos : 0 < remaining.length := List.length_pos.2 (List.ne_nil_of_mem hmem)
        have herase := List.length_erase_of_mem hmem
        obtain ⟨x, hx, ht⟩ := ih (n :: acc) (remaining.erase n) h (by omega)
        exact ⟨x, List.mem_of_mem_erase hx, ht⟩

theorem topoSort_none_cycle {nodes : List String} {es : List Edge}
    (h : topoSort nodes es = none) : HasCycleIn nodes es :=
  topoAux_none_cycle nodes.length [] nodes h le_rfl

/-- `has_cycles` is exactly the cycle-existence test: `nx.find_cycle` finds a
cycle iff the graph has one, iff no topological order exists. -/
theorem has_cycles_iff_cycle {nodes : List String} {es : List Edge} (hnd : nodes.Nodup)
    (hsrc : ∀ e ∈ es, e.src ∈ nodes) (hdst : ∀ e ∈ es, e.dst ∈ nodes) :
    has_cycles nodes es = true ↔ HasCycleIn nodes es := by
  constructor
  · intro h
    exact topoSort_none_cycle (Option.isNone_iff_eq_none.1 h)
  · intro h
    simp [has_cycles, cycle_topoSort_none hnd hsrc hdst h]

/-! ### Fold and state-update lemmas -/

theorem forwardStep_ne {acts : List Activity} {es : List Edge} {ps : ℚ} {st : St}
    {n c : String} (h : c ≠ n) : forwardStep acts es ps st n c = st c := by
  unfold forwardStep
  cases hA : actOf acts n with
  | none => rfl
  | some a => simp [setEarly, h]

theorem backwardStep_ne {acts : List Activity} {es : List Edge} {pe : ℚ} {st : St}
    {n c : String} (h : c ≠ n) : backwardStep acts es pe st n c = st c := by
  unfold backwardStep
  cases hA : actOf acts n with
  | none => rfl
  | some a => simp [setLate, h]

theorem foldl_step_no_touch {f : St → String → St}
    (hf : ∀ st n c, c ≠ n → f st n c = st c) :
    ∀ (l : List String) (st : St) (c : String), c ∉ l → (l.foldl f st) c = st c := by
  intro l
  induction l with
  | nil => intro st c _; rfl
  | cons n l ih =>
    intro st c hc
    simp only [List.mem_cons, not_or] at hc
    simp only [List.foldl_cons]
    rw [ih _ _ hc.2, hf st n c hc.1]

theorem foldl_append_no_touch {f : St → String → St}
    (hf : ∀ st n c, c ≠ n → f st n c = st c)
    {l₂ : List String} {c : String} (h : c ∉ l₂) (l₁ : List String) (st : St) :
    ((l₁ ++ l₂).foldl f st) c = (l₁.foldl f st) c := by
  rw [List.foldl_append]
  exact foldl_step_no_touch hf l₂ _ c h

theorem foldl_split_value {f : St → String → St}
    (hf : ∀ st n c, c ≠ n → f st n c = st c)
    {l₂ : List String} {n : String} (hnot : n ∉ l₂) (l₁ : List String) (st : St) :
    ((l₁ ++ n :: l₂).foldl f st) n = f (l₁.foldl f st) n n := by
  rw [List.foldl_append, List.foldl_cons]
  exact foldl_step_no_touch hf l₂ _ n hnot

theorem forwardPass_assigned {acts : List Activity} {es : List Edge} {ps : ℚ} :
    ∀ (l : List String) (st : St) (n : String), n ∈ l → (actOf acts n).isSome →
      ∃ u v : ℚ, (forwardPass acts es ps l st n).early_start = some u ∧
        (forwardPass acts es ps l st n).early_finish = some v := by
  intro l
  induction l with
  | nil => intro st n hn; exact absurd hn (List.not_mem_nil n)
  | cons m l ih =>
    intro st n hn hsome
    simp only [forwardPass, List.foldl_cons] at *
    by_cases hnl : n ∈ l
    · exact ih _ n hnl hsome
    · have hnm : n = m := by
        rcases List.mem_cons.1 hn with h | h
        · exact h
        · exact absurd h hnl
      subst hnm
      rw [foldl_step_no_touch (fun st k c h => forwardStep_ne h) l _ n hnl]
      obtain ⟨a, ha⟩ := Option.isSome_iff_exists.1 hsome
      refine ⟨forwardES es ps st n, forwardES es ps st n + a.duration_hours, ?_⟩
      simp [forwardStep, ha, setEarly]

theorem backwardPass_assigned {acts : List Activity} {es : List Edge} {pe : ℚ} :
    ∀ (l : List String) (st : St) (n : String), n ∈ l → (actOf acts n).isSome →
      ∃ u v : ℚ, (backwardPass acts es pe l st n).late_finish = some u ∧
        (backwardPass acts es pe l st n).late_start = some v := by
  intro l
  induction l with
  | nil => intro st n hn; exact absurd hn (List.not_mem_nil n)
  | cons m l ih =>
    intro st n hn hsome
    simp only [backwardPass, List.foldl_cons] at *
    by_cases hnl : n ∈ l
    · exact ih _ n hnl hsome
    · have hnm : n = m := by
        rcases List.mem_cons.1 hn with h | h
        · exact h
        · exact absurd h hnl
      subst hnm
      rw [foldl_step_no_touch (fun st k c h => backwardStep_ne h) l _ n hnl]
      obtain ⟨a, ha⟩ := Option.isSome_iff_exists.1 hsome
      refine ⟨backwardLF es pe st n, backwardLF es pe st n - a.duration_hours, ?_⟩
      simp [backwardStep, ha, setLate]

theorem backwardStep_keeps_early {acts : List Activity} {es : List Edge} {pe : ℚ}
    {st : St} {n c : String} :
    ((backwardStep acts es pe st n) c).early_start = (st c).early_start ∧
    ((backwardStep acts es pe st n) c).early_finish = (st c).early_finish := by
  unfold backwardStep
  cases hA : actOf acts n with
  | none => exact ⟨rfl, rfl⟩
  | some a =>
    by_cases h : c = n <;> simp [setLate, h]

theorem backwardPass_keeps_early {acts : List Activity} {es : List Edge} {pe : ℚ} :
    ∀ (l : List String) (st : St) (c : String),
      ((backwardPass acts es pe l st) c).early_start = (st c).early_start ∧
      ((backwardPass acts es pe l st) c).early_finish = (st c).early_finish := by
  intro l
  induction l with
  | nil => intro st c; exact ⟨rfl, rfl⟩
  | cons m l ih =>
    intro st c
    simp only [backwardPass, List.foldl_cons] at *
    refine ⟨(ih _ c).1.trans backwardStep_keeps_early.1,
      (ih _ c).2.trans backwardStep_keeps_early.2⟩

theorem floatStep_keeps {st : St} {a : Activity} {c : String} :
    ((floatStep st a) c).early_start = (st c).early_start ∧
    ((floatStep st a) c).early_finish = (st c).early_finish ∧
    ((floatStep st a) c).late_start = (st c).late_start ∧
    ((floatStep st a) c).late_finish = (st c).late_finish := by
  unfold floatStep
  cases h1 : (st a.task_code).late_start <;> cases h2 : (st a.task_code).early_start <;>
    by_cases h : c = a.task_code <;> simp [setFloat, h]

theorem calcTotalFloat_keeps {acts : List Activity} :
    ∀ (st : St) (c : String),
      ((calcTotalFloat acts st) c).early_start = (st c).early_start ∧
      ((calcTotalFloat acts st) c).early_finish = (st c).early_finish ∧
      ((calcTotalFloat acts st) c).late_start = (st c).late_start ∧
      ((calcTotalFloat acts st) c).late_finish = (st c).late_finish := by
  induction acts with
  | nil => intro st c; exact ⟨rfl, rfl, rfl, rfl⟩
  | cons a acts ih =>
    intro st c
    simp only [calcTotalFloat, List.foldl_cons] at *
    refine ⟨(ih _ c).1.trans floatStep_keeps.1, (ih _ c).2.1.trans floatStep_keeps.2.1,
      (ih _ c).2.2.1.trans floatStep_keeps.2.2.1, (ih _ c).2.2.2.trans floatStep_keeps.2.2.2⟩

/-! ### The pass folds compute maxima and minima -/

theorem ite_lt_max {m c : ℚ} : (if m < c then c else m) = max m c := by
  rcases le_or_lt c m with h | h
  · rw [if_neg (not_lt.2 h), max_eq_left h]
  · rw [if_pos h, max_eq_right h.le]

theorem ite_lt_min {m c : ℚ} : (if c < m then c else m) = min m c := by
  rcases le_or_lt m c with h | h
  · rw [if_neg (not_lt.2 h), min_eq_left h]
  · rw [if_pos h, min_eq_right h.le]

theorem fwd_fold_eq_max {es : List Edge} {st : St} {n : String} :
    ∀ (l : List String) (m : ℚ), (∀ p ∈ l, ((st p).early_finish).isSome) →
      l.foldl (fwdCand es st n) m = (l.map fun p => efD st p + lagOf es p n).foldl max m := by
  intro l
  induction l with
  | nil => intro m _; rfl
  | cons p l ih =>
    intro m hs
    obtain ⟨f, hf⟩ := Option.isSome_iff_exists.1 (hs p (List.mem_cons_self _ _))
    simp only [List.foldl_cons, List.map_cons]
    rw [ih _ (fun q hq => hs q (List.mem_cons_of_mem _ hq))]
    congr 1
    simp only [fwdCand, hf, efD, Option.getD_some]
    exact ite_lt_max

theorem bwd_fold_eq_min {es : List Edge} {st : St} {n : String} :
    ∀ (l : List String) (m : ℚ), (∀ s ∈ l, ((st s).late_start).isSome) →
      l.foldl (bwdCand es st n) m = (l.map fun s => lsD st s - lagOf es n s).foldl min m := by
  intro l
  induction l with
  | nil => intro m _; rfl
  | cons s l ih =>
    intro m hs
    obtain ⟨f, hf⟩ := Option.isSome_iff_exists.1 (hs s (List.mem_cons_self _ _))
    simp only [List.foldl_cons, List.map_cons]
    rw [ih _ (fun q hq => hs q (List.mem_cons_of_mem _ hq))]
    congr 1
    simp only [bwdCand, hf, lsD, Option.getD_some]
    exact ite_lt_min

/-! ### Characterization of the forward pass -/

theorem predsOf_mem_nodes {acts : List Activity} {p n : String}
    (hp : p ∈ predsOf (edgesOf acts) n) : p ∈ nodesOf acts := by
  obtain ⟨e, hee, hesrc, -⟩ := hasEdgeB_iff.1 (mem_predsOf.1 hp)
  exact hesrc ▸ edgesOf_src_mem hee

theorem forwardPass_char {acts : List Activity} {l : List String} {st0 : St} {ps : ℚ}
    (hnd : (nodesOf acts).Nodup)
    (hl : topoSort (nodesOf acts) (edgesOf acts) = some l) :
    ∀ n ∈ nodesOf acts,
      ∃ a, actOf acts n = some a ∧
        (forwardPass acts (edgesOf acts) ps l st0 n).early_start =
          some (fwdESval (edgesOf acts) ps (forwardPass acts (edgesOf acts) ps l st0) n) ∧
        (forwardPass acts (edgesOf acts) ps l st0 n).early_finish =
          some (fwdESval (edgesOf acts) ps (forwardPass acts (edgesOf acts) ps l st0) n
            + a.duration_hours) := by
  intro n hn
  obtain ⟨a, ha, -⟩ := actOf_isSome_of_mem hn
  have hperm := topoSort_perm hl
  have hlnd : l.Nodup := hperm.symm.nodup hnd
  have hln : n ∈ l := hperm.mem_iff.2 hn
  obtain ⟨l₁, l₂, hsplit⟩ := List.append_of_mem hln
  have hdecomp : (l₁ ++ n :: l₂).Nodup := hsplit ▸ hlnd
  rw [List.nodup_append] at hdecomp
  have hnl₂ : n ∉ l₂ := (List.nodup_cons.1 hdecomp.2.1).1
  have hFn : forwardPass acts (edgesOf acts) ps l st0 n =
      forwardStep acts (edgesOf acts) ps (forwardPass acts (edgesOf acts) ps l₁ st0) n n := by
    rw [show forwardPass acts (edgesOf acts) ps l st0 =
      (l₁ ++ n :: l₂).foldl (forwardStep acts (edgesOf acts) ps) st0 by rw [← hsplit]; rfl]
    exact foldl_split_value (fun st k c h => forwardStep_ne h) hnl₂ l₁ st0
  have hpred : ∀ p ∈ predsOf (edgesOf acts) n, p ∈ l₁ := fun p hp =>
    topoSort_ord hl n l₁ l₂ hsplit p (mem_predsOf.1 hp) (predsOf_mem_nodes hp)
  have hfinal : ∀ p ∈ l₁, forwardPass acts (edgesOf acts) ps l st0 p =
      forwardPass acts (edgesOf acts) ps l₁ st0 p := by
    intro p hp
    have hpn : p ∉ n :: l₂ := fun hmem => hdecomp.2.2 hp hmem
    rw [show forwardPass acts (edgesOf acts) ps l st0 =
      (l₁ ++ n :: l₂).foldl (forwardStep acts (edgesOf acts) ps) st0 by rw [← hsplit]; rfl]
    exact foldl_append_no_touch (fun st k c h => forwardStep_ne h) hpn l₁ st0
  have hsome : ∀ p ∈ predsOf (edgesOf acts) n,
      ((forwardPass acts (edgesOf acts) ps l₁ st0 p).early_finish).isSome := by
    intro p hp
    obtain ⟨b, hb, -⟩ := actOf_isSome_of_mem (predsOf_mem_nodes hp)
    obtain ⟨u, v, -, hv⟩ := forwardPass_assigned l₁ st0 p (hpred p hp)
      (Option.isSome_iff_exists.2 ⟨b, hb⟩)
    rw [hv]
    rfl
  have hval : forwardES (edgesOf acts) ps (forwardPass acts (edgesOf acts) ps l₁ st0) n =
      fwdESval (edgesOf acts) ps (forwardPass acts (edgesOf acts) ps l st0) n := by
    unfold forwardES fwdESval
    by_cases hempty : (predsOf (edgesOf acts) n).isEmpty
    · rw [if_pos hempty, if_pos hempty]
    · rw [if_neg hempty, if_neg hempty]
      rw [fwd_fold_eq_max _ _ hsome]
      congr 1
      refine List.map_congr_left ?_
      intro p hp
      rw [efD, efD, hfinal p (hpred p hp)]
  refine ⟨a, ha, ?_, ?_⟩
  · rw [hFn]
    simp [forwardStep, ha, setEarly, hval]
  · rw [hFn]
    simp [forwardStep, ha, setEarly, hval]

/-! ### Characterization of the backward pass -/

theorem topoSort_ord_rev {nodes : List String} {es : List Edge} {l : List String}
    (hnd : nodes.Nodup) (h : topoSort nodes es = some l) :
    ∀ x r₁ r₂, l.reverse = r₁ ++ x :: r₂ → ∀ s, hasEdgeB es x s = true → s ∈ nodes →
      s ∈ r₁ := by
  intro x r₁ r₂ hsplit s hedge hs
  have hperm := topoSort_perm h
  have hlnd : l.Nodup := hperm.symm.nodup hnd
  have hl : l = r₂.reverse ++ x :: r₁.reverse := by
    have hrr := congrArg List.reverse hsplit
    rw [List.reverse_reverse] at hrr
    rw [hrr]
    simp [List.reverse_append]
  have hlnd' : (r₂.reverse ++ x :: r₁.reverse).Nodup := hl ▸ hlnd
  rw [List.nodup_append] at hlnd'
  have hsl : s ∈ r₁ ++ x :: r₂ := by
    rw [← hsplit, List.mem_reverse]
    exact hperm.mem_iff.2 hs
  rcases List.mem_append.1 hsl with hs1 | hs2
  · exact hs1
  have hxl : x ∈ l := by
    rw [← List.mem_reverse, hsplit]
    exact List.mem_append.2 (Or.inr (List.mem_cons_self _ _))
  have hxnodes : x ∈ nodes := hperm.mem_iff.1 hxl
  rcases List.mem_cons.1 hs2 with rfl | hs3
  · have hmem := topoSort_ord h s r₂.reverse r₁.reverse hl s hedge hxnodes
    exact (hlnd'.2.2 hmem (List.mem_cons_self _ _)).elim
  · have hsrev : s ∈ r₂.reverse := List.mem_reverse.2 hs3
    obtain ⟨A, B, hAB⟩ := List.append_of_mem hsrev
    have hl2 : l = A ++ s :: (B ++ x :: r₁.reverse) := by
      rw [hl, hAB]
      simp
    have hxA : x ∈ A := topoSort_ord h s A (B ++ x :: r₁.reverse) hl2 x hedge hxnodes
    have hxr2 : x ∈ r₂.reverse := by
      rw [hAB]
      exact List.mem_append.2 (Or.inl hxA)
    exact (hlnd'.2.2 hxr2 (List.mem_cons_self _ _)).elim

theorem succsOf_mem_nodes {acts : List Activity} {n s : String}
    (hdst : ∀ e ∈ edgesOf acts, e.dst ∈ nodesOf acts)
    (hp : s ∈ succsOf (edgesOf acts) n) : s ∈ nodesOf acts := by
  obtain ⟨e, hee, -, hedst⟩ := hasEdgeB_iff.1 (mem_succsOf.1 hp)
  exact hedst ▸ hdst e hee

theorem backwardPass_char {acts : List Activity} {l : List String} {st1 : St} {pe : ℚ}
    (hnd : (nodesOf acts).Nodup)
    (hl : topoSort (nodesOf acts) (edgesOf acts) = some l)
    (hdst : ∀ e ∈ edgesOf acts, e.dst ∈ nodesOf acts) :
    ∀ n ∈ nodesOf acts,
      ∃ a, actOf acts n = some a ∧
        (backwardPass acts (edgesOf acts) pe l.reverse st1 n).late_finish =
          some (bwdLFval (edgesOf acts) pe
            (backwardPass acts (edgesOf acts) pe l.reverse st1) n) ∧
        (backwardPass acts (edgesOf acts) pe l.reverse st1 n).late_start =
          some (bwdLFval (edgesOf acts) pe
            (backwardPass acts (edgesOf acts) pe l.reverse st1) n - a.duration_hours) := by
  intro n hn
  obtain ⟨a, ha, -⟩ := actOf_isSome_of_mem hn
  have hperm := topoSort_perm hl
  have hlnd : l.reverse.Nodup := List.nodup_reverse.2 (hperm.symm.nodup hnd)
  have hln : n ∈ l.reverse := List.mem_reverse.2 (hperm.mem_iff.2 hn)
  obtain ⟨r₁, r₂, hsplit⟩ := List.append_of_mem hln
  have hdecomp : (r₁ ++ n :: r₂).Nodup := hsplit ▸ hlnd
  rw [List.nodup_append] at hdecomp
  have hnr₂ : n ∉ r₂ := (List.nodup_cons.1 hdecomp.2.1).1
  have hFn : backwardPass acts (edgesOf acts) pe l.reverse st1 n =
      backwardStep acts (edgesOf acts) pe (backwardPass acts (edgesOf acts) pe r₁ st1) n n := by
    rw [show backwardPass acts (edgesOf acts) pe l.reverse st1 =
      (r₁ ++ n :: r₂).foldl (backwardStep acts (edgesOf acts) pe) st1 by rw [← hsplit]; rfl]
    exact foldl_split_value (fun st k c h => backwardStep_ne h) hnr₂ r₁ st1
  have hsucc : ∀ s ∈ succsOf (edgesOf acts) n, s ∈ r₁ := fun s hp =>
    topoSort_ord_rev hnd hl n r₁ r₂ hsplit s (mem_succsOf.1 hp) (succsOf_mem_nodes hdst hp)
  have hfinal : ∀ s ∈ r₁, backwardPass acts (edgesOf acts) pe l.reverse st1 s =
      backwardPass acts (edgesOf acts) pe r₁ st1 s := by
    intro s hp
    have hpn : s ∉ n :: r₂ := fun hmem => hdecomp.2.2 hp hmem
    rw [show backwardPass acts (edgesOf acts) pe l.reverse st1 =
      (r₁ ++ n :: r₂).foldl (backwardStep acts (edgesOf acts) pe) st1 by rw [← hsplit]; rfl]
    exact foldl_append_no_touch (fun st k c h => backwardStep_ne h) hpn r₁ st1
  have hsome : ∀ s ∈ succsOf (edgesOf acts) n,
      ((backwardPass acts (edgesOf acts) pe r₁ st1 s).late_start).isSome := by
    intro s hp
    obtain ⟨b, hb, -⟩ := actOf_isSome_of_mem (succsOf_mem_nodes hdst hp)
    obtain ⟨u, v, -, hv⟩ := backwardPass_assigned r₁ st1 s (hsucc s hp)
      (Option.isSome_iff_exists.2 ⟨b, hb⟩)
    rw [hv]
    rfl
  have hval : backwardLF (edgesOf acts) pe (backwardPass acts (edgesOf acts) pe r₁ st1) n =
      bwdLFval (edgesOf acts) pe (backwardPass acts (edgesOf acts) pe l.reverse st1) n := by
    unfold backwardLF bwdLFval
    by_cases hempty : (succsOf (edgesOf acts) n).isEmpty
    · rw [if_pos hempty, if_pos hempty]
    · rw [if_neg hempty, if_neg hempty]
      rw [bwd_fold_eq_min _ _ hsome]
      congr 1
      refine List.map_congr_left ?_
      intro s hp
      rw [lsD, lsD, hfinal s (hsucc s hp)]
  refine ⟨a, ha, ?_, ?_⟩
  · rw [hFn]
    simp [backwardStep, ha, setLate, hval]
  · rw [hFn]
    simp [backwardStep, ha, setLate, hval]

/-! ### Characterization of the final engine state -/

theorem exists_topoSort_of_not_cycles {nodes : List String} {es : List Edge}
    (hac : has_cycles nodes es = false) : ∃ l, topoSort nodes es = some l := by
  unfold has_cycles at hac
  cases h : topoSort nodes es with
  | none => rw [h] at hac; simp at hac
  | some l => exact ⟨l, rfl⟩

theorem finalState_unfold {acts : List Activity} {now : ℚ} {l : List String}
    (hl : topoSort (nodesOf acts) (edgesOf acts) = some l) :
    finalState acts now =
      calcTotalFloat acts
        (backwardPass acts (edgesOf acts)
          (projectEnd acts
            (forwardPass acts (edgesOf acts) (projectStart acts now) l (initSt acts)) now)
          l.reverse
          (forwardPass acts (edgesOf acts) (projectStart acts now) l (initSt acts))) := by
  simp [finalState, hl]

theorem calcTotalFloat_no_touch {c : String} :
    ∀ (acts : List Activity) (st : St), (∀ b ∈ acts, b.task_code ≠ c) →
      (calcTotalFloat acts st) c = st c := by
  intro acts
  induction acts with
  | nil => intro st _; rfl
  | cons b acts ih =>
    intro st h
    simp only [calcTotalFloat, List.foldl_cons] at *
    rw [ih _ (fun x hx => h x (List.mem_cons_of_mem _ hx))]
    have hbc := h b (List.mem_cons_self _ _)
    unfold floatStep
    cases (st b.task_code).late_start <;> cases (st b.task_code).early_start <;>
      simp [setFloat, Ne.symm hbc]

theorem calcTotalFloat_value {acts : List Activity} (hnd : (nodesOf acts).Nodup) :
    ∀ (st : St) (a : Activity), a ∈ acts →
      ((calcTotalFloat acts st) a.task_code).total_float_hours =
        match (st a.task_code).late_start, (st a.task_code).early_start with
        | some ls, some e => some (ls - e)
        | _, _ => some 0 := by
  induction acts with
  | nil => intro st a ha; exact absurd ha (List.not_mem_nil a)
  | cons b acts ih =>
    intro st a ha
    have hnd' : (nodesOf acts).Nodup := (List.nodup_cons.1 hnd).2
    have hbni : b.task_code ∉ nodesOf acts := (List.nodup_cons.1 hnd).1
    simp only [calcTotalFloat, List.foldl_cons]
    rcases List.mem_cons.1 ha with rfl | ha'
    · have hnot : ∀ x ∈ acts, x.task_code ≠ a.task_code := by
        intro x hx he
        exact hbni (he ▸ List.mem_map.2 ⟨x, hx, rfl⟩)
      rw [show (List.foldl floatStep (floatStep st a) acts) a.task_code =
          (floatStep st a) a.task_code from calcTotalFloat_no_touch acts _ hnot]
      unfold floatStep
      cases (st a.task_code).late_start <;> cases (st a.task_code).early_start <;>
        simp [setFloat]
    · have := ih hnd' (floatStep st b) a ha'
      rw [show calcTotalFloat acts (floatStep st b) = List.foldl floatStep (floatStep st b) acts
        from rfl] at this
      rw [this, floatStep_keeps.2.2.1, floatStep_keeps.1]

theorem finalState_keeps_early {acts : List Activity} {now : ℚ} {l : List String}
    (hl : topoSort (nodesOf acts) (edgesOf acts) = some l) (c : String) :
    (finalState acts now c).early_start =
      (forwardPass acts (edgesOf acts) (projectStart acts now) l (initSt acts) c).early_start ∧
    (finalState acts now c).early_finish =
      (forwardPass acts (edgesOf acts) (projectStart acts now) l (initSt acts) c).early_finish := by
  rw [finalState_unfold hl]
  exact ⟨(calcTotalFloat_keeps _ c).1.trans (backwardPass_keeps_early _ _ c).1,
    (calcTotalFloat_keeps _ c).2.1.trans (backwardPass_keeps_early _ _ c).2⟩

theorem finalState_keeps_late {acts : List Activity} {now : ℚ} {l : List String}
    (hl : topoSort (nodesOf acts) (edgesOf acts) = some l) (c : String) :
    (finalState acts now c).late_start =
      (backwardPass acts (edgesOf acts)
        (projectEnd acts
          (forwardPass acts (edgesOf acts) (projectStart acts now) l (initSt acts)) now)
        l.reverse
        (forwardPass acts (edgesOf acts) (projectStart acts now) l (initSt acts)) c).late_start ∧
    (finalState acts now c).late_finish =
      (backwardPass acts (edgesOf acts)
        (projectEnd acts
          (forwardPass acts (edgesOf acts) (projectStart acts now) l (initSt acts)) now)
        l.reverse
        (forwardPass acts (edgesOf acts) (projectStart acts now) l (initSt acts)) c).late_finish := by
  rw [finalState_unfold hl]
  exact ⟨(calcTotalFloat_keeps _ c).2.2.1, (calcTotalFloat_keeps _ c).2.2.2⟩

theorem fwdESval_congr {es : List Edge} {ps : ℚ} {st st' : St} {n : String}
    (h : ∀ p ∈ predsOf es n, (st p).early_finish = (st' p).early_finish) :
    fwdESval es ps st n = fwdESval es ps st' n := by
  unfold fwdESval
  by_cases hempty : (predsOf es n).isEmpty
  · rw [if_pos hempty, if_pos hempty]
  · rw [if_neg hempty, if_neg hempty]
    congr 1
    refine List.map_congr_left ?_
    intro p hp
    rw [efD, efD, h p hp]

theorem bwdLFval_congr {es : List Edge} {pe : ℚ} {st st' : St} {n : String}
    (h : ∀ s ∈ succsOf es n, (st s).late_start = (st' s).late_start) :
    bwdLFval es pe st n = bwdLFval es pe st' n := by
  unfold bwdLFval
  by_cases hempty : (succsOf es n).isEmpty
  · rw [if_pos hempty, if_pos hempty]
  · rw [if_neg hempty, if_neg hempty]
    congr 1
    refine List.map_congr_left ?_
    intro s hp
    rw [lsD, lsD, h s hp]

theorem projectEnd_congr {acts : List Activity} {st st' : St} {now : ℚ}
    (h : ∀ a ∈ acts, (st a.task_code).early_finish = (st' a.task_code).early_finish) :
    projectEnd acts st now = projectEnd acts st' now := by
  unfold projectEnd
  rw [List.filterMap_congr (fun a ha => h a ha)]

/-- The complete characterization of the engine state after the three passes
of a successful `calculate()` run: for every activity node `n`,
`early_start` is the floored predecessor maximum, `early_finish = early_start
+ duration`, `late_finish` is the capped successor minimum, `late_start =
late_finish - duration`, and `total_float = late_start - early_start`. -/
theorem finalState_char {acts : List Activity} {now : ℚ}
    (hnd : (nodesOf acts).Nodup)
    (hdst : ∀ e ∈ edgesOf acts, e.dst ∈ nodesOf acts)
    (hac : has_cycles (nodesOf acts) (edgesOf acts) = false) :
    ∀ n ∈ nodesOf acts,
      ∃ a, actOf acts n = some a ∧
        (finalState acts now n).early_start =
          some (fwdESval (edgesOf acts) (projectStart acts now) (finalState acts now) n) ∧
        (finalState acts now n).early_finish =
          some (fwdESval (edgesOf acts) (projectStart acts now) (finalState acts now) n
            + a.duration_hours) ∧
        (finalState acts now n).late_finish =
          some (bwdLFval (edgesOf acts) (projectEnd acts (finalState acts now) now)
            (finalState acts now) n) ∧
        (finalState acts now n).late_start =
          some (bwdLFval (edgesOf acts) (projectEnd acts (finalState acts now) now)
            (finalState acts now) n - a.duration_hours) ∧
        (finalState acts now n).total_float_hours =
          some (lsD (finalState acts now) n - esD (finalState acts now) n) := by
  obtain ⟨l, hl⟩ := exists_topoSort_of_not_cycles hac
  intro n hn
  obtain ⟨a, ha, hes1, hef1⟩ :=
    @forwardPass_char acts l (initSt acts) (projectStart acts now) hnd hl n hn
  obtain ⟨a', ha', hlf2, hls2⟩ :=
    @backwardPass_char acts l
      (forwardPass acts (edgesOf acts) (projectStart acts now) l (initSt acts))
      (projectEnd acts
        (forwardPass acts (edgesOf acts) (projectStart acts now) l (initSt acts)) now)
      hnd hl hdst n hn
  have haa : a' = a := by rw [ha] at ha'; exact (Option.some_injective _ ha').symm
  rw [haa] at hls2
  have hkeepE := fun c => @finalState_keeps_early acts now l hl c
  have hkeepL := fun c => @finalState_keeps_late acts now l hl c
  have hfwd_congr : fwdESval (edgesOf acts) (projectStart acts now)
      (forwardPass acts (edgesOf acts) (projectStart acts now) l (initSt acts)) n =
      fwdESval (edgesOf acts) (projectStart acts now) (finalState acts now) n :=
    fwdESval_congr fun p _ => ((hkeepE p).2).symm
  have hpe_congr : projectEnd acts
      (forwardPass acts (edgesOf acts) (projectStart acts now) l (initSt acts)) now =
      projectEnd acts (finalState acts now) now :=
    projectEnd_congr fun b _ => ((hkeepE b.task_code).2).symm
  have hbwd_congr : bwdLFval (edgesOf acts)
      (projectEnd acts
        (forwardPass acts (edgesOf acts) (projectStart acts now) l (initSt acts)) now)
      (backwardPass acts (edgesOf acts)
        (projectEnd acts
          (forwardPass acts (edgesOf acts) (projectStart acts now) l (initSt acts)) now)
        l.reverse
        (forwardPass acts (edgesOf acts) (projectStart acts now) l (initSt acts))) n =
      bwdLFval (edgesOf acts) (projectEnd acts (finalState acts now) now)
        (finalState acts now) n := by
    have h1 := @bwdLFval_congr (edgesOf acts)
      (projectEnd acts
        (forwardPass acts (edgesOf acts) (projectStart acts now) l (initSt acts)) now)
      (backwardPass acts (edgesOf acts)
        (projectEnd acts
          (forwardPass acts (edgesOf acts) (projectStart acts now) l (initSt acts)) now)
        l.reverse
        (forwardPass acts (edgesOf acts) (projectStart acts now) l (initSt acts)))
      (finalState acts now) n (fun s _ => ((hkeepL s).1).symm)
    rw [h1, hpe_congr]
  have hES : (finalState acts now n).early_start =
      some (fwdESval (edgesOf acts) (projectStart acts now) (finalState acts now) n) := by
    rw [(hkeepE n).1, hes1, hfwd_congr]
  have hEF : (finalState acts now n).early_finish =
      some (fwdESval (edgesOf acts) (projectStart acts now) (finalState acts now) n
        + a.duration_hours) := by
    rw [(hkeepE n).2, hef1, hfwd_congr]
  have hLF : (finalState acts now n).late_finish =
      some (bwdLFval (edgesOf acts) (projectEnd acts (finalState acts now) now)
        (finalState acts now) n) := by
    rw [(hkeepL n).2, hlf2, hbwd_congr]
  have hLS : (finalState acts now n).late_start =
      some (bwdLFval (edgesOf acts) (projectEnd acts (finalState acts now) now)
        (finalState acts now) n - a.duration_hours) := by
    rw [(hkeepL n).1, hls2, hbwd_congr]
  refine ⟨a, ha, hES, hEF, hLF, hLS, ?_⟩
  have hamem : a ∈ acts := (actOf_eq_some_iff ha).1
  have hacode : a.task_code = n := (actOf_eq_some_iff ha).2
  have hval := calcTotalFloat_value hnd
    (backwardPass acts (edgesOf acts)
      (projectEnd acts
        (forwardPass acts (edgesOf acts) (projectStart acts now) l (initSt acts)) now)
      l.reverse
      (forwardPass acts (edgesOf acts) (projectStart acts now) l (initSt acts)))
    a hamem
  rw [hacode] at hval
  have hst2es : (backwardPass acts (edgesOf acts)
      (projectEnd acts
        (forwardPass acts (edgesOf acts) (projectStart acts now) l (initSt acts)) now)
      l.reverse
      (forwardPass acts (edgesOf acts) (projectStart acts now) l (initSt acts)) n).early_start
      = some (fwdESval (edgesOf acts) (projectStart acts now)
          (forwardPass acts (edgesOf acts) (projectStart acts now) l (initSt acts)) n) :=
    (backwardPass_keeps_early _ _ n).1.trans hes1
  have htf1 : (finalState acts now n).total_float_hours =
      match (backwardPass acts (edgesOf acts)
          (projectEnd acts
            (forwardPass acts (edgesOf acts) (projectStart acts now) l (initSt acts)) now)
          l.reverse
          (forwardPass acts (edgesOf acts) (projectStart acts now) l (initSt acts)) n).late_start,
        (backwardPass acts (edgesOf acts)
          (projectEnd acts
            (forwardPass acts (edgesOf acts) (projectStart acts now) l (initSt acts)) now)
          l.reverse
          (forwardPass acts (edgesOf acts) (projectStart acts now) l (initSt acts)) n).early_start
        with
      | some ls, some e => some (ls - e)
      | _, _ => some 0 := by
    rw [finalState_unfold hl]
    exact hval
  rw [htf1, hls2, hst2es, hbwd_congr, hfwd_congr]
  simp only [lsD, esD]
  rw [hLS, hES]
  rfl

/-! ### Further helper lemmas -/

theorem actOf_self {acts : List Activity} (hnd : (nodesOf acts).Nodup) {a : Activity}
    (ha : a ∈ acts) : actOf acts a.task_code = some a := by
  induction acts with
  | nil => exact absurd ha (List.not_mem_nil a)
  | cons b rest ih =>
    rcases List.mem_cons.1 ha with rfl | hmem
    · simp [actOf]
    · have hbni : b.task_code ∉ nodesOf rest := (List.nodup_cons.1 hnd).1
      have hne : (b.task_code == a.task_code) = false := by
        rw [beq_eq_false_iff_ne]
        intro he
        exact hbni (he ▸ List.mem_map.2 ⟨a, hmem, rfl⟩)
      have := ih (List.nodup_cons.1 hnd).2 hmem
      simp only [actOf, List.find?_cons] at *
      rw [hne]
      exact this

theorem calculate_ok_not_cycles {acts : List Activity} {now : ℚ}
    {r : List (List Activity) × ℚ} (hok : calculate acts now = Except.ok r) :
    has_cycles (nodesOf acts) (edgesOf acts) = false := by
  by_cases h : has_cycles (nodesOf acts) (edgesOf acts)
  · simp [calculate, h] at hok
  · simpa using h

theorem calculate_ok_of_not_cycles {acts : List Activity} {now : ℚ}
    (hac : has_cycles (nodesOf acts) (edgesOf acts) = false) :
    ∃ r, calculate acts now = Except.ok r := by
  unfold calculate
  rw [hac]
  by_cases h : (identifyCritical acts (finalState acts now)).isEmpty <;> simp [h]

theorem finalState_eq_calc {acts : List Activity} {now : ℚ} :
    ∃ st, finalState acts now = calcTotalFloat acts st := by
  unfold finalState
  exact ⟨_, rfl⟩

theorem calcTotalFloat_tf_some {c : String} :
    ∀ (acts : List Activity) (st : St), (∃ b ∈ acts, b.task_code = c) →
      ∃ f, ((calcTotalFloat acts st) c).total_float_hours = some f := by
  intro acts
  induction acts with
  | nil =>
    rintro st ⟨b, hb, -⟩
    exact absurd hb (List.not_mem_nil b)
  | cons b rest ih =>
    intro st hex
    by_cases hr : ∃ x ∈ rest, x.task_code = c
    · simp only [calcTotalFloat, List.foldl_cons] at *
      exact ih _ hr
    · obtain ⟨x, hx, hxc⟩ := hex
      have hbc : b.task_code = c := by
        rcases List.mem_cons.1 hx with rfl | hmem
        · exact hxc
        · exact absurd ⟨x, hmem, hxc⟩ hr
      push_neg at hr
      simp only [calcTotalFloat, List.foldl_cons]
      rw [show List.foldl floatStep (floatStep st b) rest c =
        (floatStep st b) c from calcTotalFloat_no_touch rest _ hr]
      rw [← Option.isSome_iff_exists]
      unfold floatStep
      cases (st b.task_code).late_start <;> cases (st b.task_code).early_start <;>
        simp [setFloat, hbc]

theorem finalState_tf_some {acts : List Activity} {now : ℚ} {a : Activity} (ha : a ∈ acts) :
    ∃ f, (finalState acts now a.task_code).total_float_hours = some f := by
  obtain ⟨st, hst⟩ := @finalState_eq_calc acts now
  rw [hst]
  exact calcTotalFloat_tf_some acts st ⟨a, ha, rfl⟩

/-! ### Claim C1: the cycle gate -/

/-- C1: for every well-formed input whose dependency graph contains a
directed cycle, `calculate()` raises the `ValueError`-class error (modelled
as `Except.error` carrying the cycle message) and returns no
forward/backward-pass results or partial output. -/
theorem cycle_gate {acts : List Activity} {now : ℚ}
    (hnd : (nodesOf acts).Nodup)
    (hdst : ∀ e ∈ edgesOf acts, e.dst ∈ nodesOf acts)
    (hc : HasCycleIn (nodesOf acts) (edgesOf acts)) :
    calculate acts now = Except.error cycleErrorMsg := by
  have h : has_cycles (nodesOf acts) (edgesOf acts) = true := by
    unfold has_cycles
    rw [cycle_topoSort_none hnd (fun e he => edgesOf_src_mem he) hdst hc]
    rfl
  simp [calculate, h]

/-- Witness for C1 on the concrete cycle A → B → A. -/
theorem cycle_gate_witness :
    (nodesOf cycActs).Nodup ∧ (∀ e ∈ edgesOf cycActs, e.dst ∈ nodesOf cycActs) ∧
    HasCycleIn (nodesOf cycActs) (edgesOf cycActs) ∧
    calculate cycActs 0 = Except.error cycleErrorMsg := by
  have h1 : (nodesOf cycActs).Nodup := by decide
  have h2 : ∀ e ∈ edgesOf cycActs, e.dst ∈ nodesOf cycActs := by decide
  have e1 : EdgeRel (edgesOf cycActs) "A" "B" :=
    (by decide : hasEdgeB (edgesOf cycActs) "A" "B" = true)
  have e2 : EdgeRel (edgesOf cycActs) "B" "A" :=
    (by decide : hasEdgeB (edgesOf cycActs) "B" "A" = true)
  have h3 : HasCycleIn (nodesOf cycActs) (edgesOf cycActs) :=
    ⟨"A", by decide, Relation.TransGen.head e1 (Relation.TransGen.single e2)⟩
  exact ⟨h1, h2, h3, cycle_gate h1 h2 h3⟩

/-! ### Claim C2: the pass formulas (corrected: floor and cap) -/

/-- C2 counterexample: with a negative lag on the edge A → B of `negLagActs`,
the engine floors `early_start("B")` at the project start (`0`) although the
predecessor maximum is `-5`, and caps `late_finish("A")` at the project end
(`0`) although the successor minimum is `5`; so the claim's unfloored and
uncapped formulas are false. -/
theorem pass_formulas_counterexample :
    predsOf (edgesOf negLagActs) "B" = ["A"] ∧
    (finalState negLagActs 0 "B").early_start = some 0 ∧
    efD (finalState negLagActs 0) "A" + lagOf (edgesOf negLagActs) "A" "B" = -5 ∧
    succsOf (edgesOf negLagActs) "A" = ["B"] ∧
    (finalState negLagActs 0 "A").late_finish = some 0 ∧
    lsD (finalState negLagActs 0) "B" - lagOf (edgesOf negLagActs) "A" "B" = 5 ∧
    ((0 : ℚ) ≠ -5) ∧ ((0 : ℚ) ≠ 5) := by
  refine ⟨by decide, by with_unfolding_all rfl, by with_unfolding_all rfl, by decide,
    by with_unfolding_all rfl, by with_unfolding_all rfl, by norm_num, by norm_num⟩

/-- C2 (amended): after the passes on a well-formed acyclic graph, a node
with predecessors has `early_start = max(project_start, max over
predecessors p of (p.early_finish + lag(p→n)))`, a node with successors has
`late_finish = min(project_end, min over successors s of (s.late_start −
lag(n→s)))`, sources get `early_start = project_start`, and sinks get
`late_finish = project_end`. -/
theorem pass_formulas_amended {acts : List Activity} {now : ℚ}
    (hnd : (nodesOf acts).Nodup)
    (hdst : ∀ e ∈ edgesOf acts, e.dst ∈ nodesOf acts)
    (hac : has_cycles (nodesOf acts) (edgesOf acts) = false) :
    ∀ n ∈ nodesOf acts,
      (predsOf (edgesOf acts) n = [] →
        (finalState acts now n).early_start = some (projectStart acts now)) ∧
      (predsOf (edgesOf acts) n ≠ [] →
        (finalState acts now n).early_start = some
          (((predsOf (edgesOf acts) n).map fun p =>
              efD (finalState acts now) p + lagOf (edgesOf acts) p n).foldl max
            (projectStart acts now))) ∧
      (succsOf (edgesOf acts) n = [] →
        (finalState acts now n).late_finish =
          some (projectEnd acts (finalState acts now) now)) ∧
      (succsOf (edgesOf acts) n ≠ [] →
        (finalState acts now n).late_finish = some
          (((succsOf (edgesOf acts) n).map fun s =>
              lsD (finalState acts now) s - lagOf (edgesOf acts) n s).foldl min
            (projectEnd acts (finalState acts now) now))) := by
  intro n hn
  obtain ⟨a, -, hES, -, hLF, -, -⟩ := finalState_char hnd hdst hac n hn
  refine ⟨?_, ?_, ?_, ?_⟩
  · intro h
    rw [hES]
    simp [fwdESval, h]
  · intro h
    rw [hES]
    simp only [fwdESval]
    rw [if_neg fun hh => h (List.isEmpty_iff.1 hh)]
  · intro h
    rw [hLF]
    simp [bwdLFval, h]
  · intro h
    rw [hLF]
    simp only [bwdLFval]
    rw [if_neg fun hh => h (List.isEmpty_iff.1 hh)]

/-- Witness for the amended C2 at node B of the chain A → B → C. -/
theorem pass_formulas_amended_witness :
    (predsOf (edgesOf chainActs) "B" = [] →
      (finalState chainActs 0 "B").early_start = some (projectStart chainActs 0)) ∧
    (predsOf (edgesOf chainActs) "B" ≠ [] →
      (finalState chainActs 0 "B").early_start = some
        (((predsOf (edgesOf chainActs) "B").map fun p =>
            efD (finalState chainActs 0) p + lagOf (edgesOf chainActs) p "B").foldl max
          (projectStart chainActs 0))) ∧
    (succsOf (edgesOf chainActs) "B" = [] →
      (finalState chainActs 0 "B").late_finish =
        some (projectEnd chainActs (finalState chainActs 0) 0)) ∧
    (succsOf (edgesOf chainActs) "B" ≠ [] →
      (finalState chainActs 0 "B").late_finish = some
        (((succsOf (edgesOf chainActs) "B").map fun s =>
            lsD (finalState chainActs 0) s - lagOf (edgesOf chainActs) "B" s).foldl min
          (projectEnd chainActs (finalState chainActs 0) 0))) :=
  pass_formulas_amended (by decide) (by decide) (by decide) "B" (by decide)

/-! ### Claim C3: the CPM field invariants -/

/-- C3: on a well-formed acyclic graph `calculate()` succeeds, and afterwards
every activity satisfies `early_finish = early_start + duration`,
`late_start = late_finish − duration` and `total_float = late_start −
early_start` (exactly, in the rational model). -/
theorem cpm_field_invariants {acts : List Activity} {now : ℚ}
    (hnd : (nodesOf acts).Nodup)
    (hdst : ∀ e ∈ edgesOf acts, e.dst ∈ nodesOf acts)
    (hac : has_cycles (nodesOf acts) (edgesOf acts) = false) :
    (∃ r, calculate acts now = Except.ok r) ∧
    ∀ a ∈ acts, ∃ e f ls lf tf : ℚ,
      (finalState acts now a.task_code).early_start = some e ∧
      (finalState acts now a.task_code).early_finish = some f ∧
      (finalState acts now a.task_code).late_start = some ls ∧
      (finalState acts now a.task_code).late_finish = some lf ∧
      (finalState acts now a.task_code).total_float_hours = some tf ∧
      f = e + a.duration_hours ∧ ls = lf - a.duration_hours ∧ tf = ls - e := by
  refine ⟨calculate_ok_of_not_cycles hac, ?_⟩
  intro a ha
  have hn : a.task_code ∈ nodesOf acts := List.mem_map.2 ⟨a, ha, rfl⟩
  obtain ⟨a', ha', hES, hEF, hLF, hLS, hTF⟩ := finalState_char hnd hdst hac a.task_code hn
  have haa : a' = a := by
    rw [actOf_self hnd ha] at ha'
    exact (Option.some_injective _ ha').symm
  rw [haa] at hEF hLS
  refine ⟨_, _, _, _, _, hES, hEF, hLS, hLF, hTF, rfl, rfl, ?_⟩
  simp only [lsD, esD]
  rw [hLS, hES]
  simp

/-- Witness for C3 on the chain A → B → C, instantiated at activity B. -/
theorem cpm_field_invariants_witness :
    (nodesOf chainActs).Nodup ∧
    (∀ e ∈ edgesOf chainActs, e.dst ∈ nodesOf chainActs) ∧
    has_cycles (nodesOf chainActs) (edgesOf chainActs) = false ∧
    (∃ r, calculate chainActs 0 = Except.ok r) ∧
    (∃ e f ls lf tf : ℚ,
      (finalState chainActs 0 "B").early_start = some e ∧
      (finalState chainActs 0 "B").early_finish = some f ∧
      (finalState chainActs 0 "B").late_start = some ls ∧
      (finalState chainActs 0 "B").late_finish = some lf ∧
      (finalState chainActs 0 "B").total_float_hours = some tf ∧
      f = e + 8 ∧ ls = lf - 8 ∧ tf = ls - e) := by
  have h1 : (nodesOf chainActs).Nodup := by decide
  have h2 : ∀ e ∈ edgesOf chainActs, e.dst ∈ nodesOf chainActs := by decide
  have h3 : has_cycles (nodesOf chainActs) (edgesOf chainActs) = false := by decide
  obtain ⟨hok, hall⟩ := cpm_field_invariants h1 h2 h3
  exact ⟨h1, h2, h3, hok, hall (mkAct "B" none 8 [("C", 0)])
    (List.mem_cons_of_mem _ (List.mem_cons_self _ _))⟩

/-! ### Claim C4: the engine's criticality test -/

/-- C4: after float computation, an activity of the input is classified
critical by the engine if and only if its computed `total_float` is at most
`0.01` hours. -/
theorem critical_iff_float_le_tolerance {acts : List Activity} {now : ℚ} {a : Activity}
    (ha : a ∈ acts) :
    a ∈ identifyCritical acts (finalState acts now) ↔
      tfD (finalState acts now) a.task_code ≤ 1 / 100 := by
  obtain ⟨f, hf⟩ := @finalState_tf_some acts now a ha
  unfold identifyCritical
  rw [List.mem_filter, hf]
  simp [ha, tfD, hf]

/-- Witness for C4 at activity A of the chain A → B → C. -/
theorem critical_iff_float_le_tolerance_witness :
    mkAct "A" (some 0) 8 [("B", 0)] ∈ chainActs ∧
    (mkAct "A" (some 0) 8 [("B", 0)] ∈ identifyCritical chainActs (finalState chainActs 0) ↔
      tfD (finalState chainActs 0) "A" ≤ 1 / 100) :=
  ⟨List.mem_cons_self _ _, critical_iff_float_le_tolerance (List.mem_cons_self _ _)⟩

/-! ### Claim C7: degenerate inputs do not raise -/

/-- C7: when nothing is critical, `calculate()` returns the empty result
`([], 0)` rather than an error; and when the induced critical subgraph has
no source or no sink, `_find_critical_paths` returns the full critical set
as a single path rather than failing. -/
theorem degenerate_inputs {acts : List Activity} {now : ℚ} {criticals : List Activity}
    {es : List Edge} {nodes : List String} :
    (has_cycles (nodesOf acts) (edgesOf acts) = false →
      identifyCritical acts (finalState acts now) = [] →
      calculate acts now = Except.ok ([], 0)) ∧
    ((subStartsOf nodes es (criticals.map (·.task_code))).isEmpty = true ∨
      (subSinksOf nodes es (criticals.map (·.task_code))).isEmpty = true →
      findCriticalPaths acts es nodes criticals = [criticals]) := by
  constructor
  · intro hac hcrit
    simp [calculate, hac, hcrit]
  · intro h
    unfold findCriticalPaths
    rcases h with h | h <;> simp [h]

/-- Witness for C7: empty input yields `([], 0)`, and an empty critical set
yields the fallback single path. -/
theorem degenerate_inputs_witness :
    calculate ([] : List Activity) 0 = Except.ok ([], 0) ∧
    findCriticalPaths ([] : List Activity) [] [] [] = [[]] := by
  constructor
  · exact (@degenerate_inputs [] 0 [] [] []).1 (by decide) (by decide)
  · exact (@degenerate_inputs [] 0 [] [] []).2 (Or.inl (by decide))

/-! ### Claim C9: finish versus start (corrected: nonnegative durations) -/

/-- C9 counterexample: an activity with negative duration (planned end
before planned start) is a well-formed acyclic input on which
`early_finish < early_start`. -/
theorem finish_ge_start_counterexample :
    (nodesOf negDurActs).Nodup ∧
    (∀ e ∈ edgesOf negDurActs, e.dst ∈ nodesOf negDurActs) ∧
    has_cycles (nodesOf negDurActs) (edgesOf negDurActs) = false ∧
    (finalState negDurActs 0 "X").early_start = some 0 ∧
    (finalState negDurActs 0 "X").early_finish = some (-1) ∧
    ¬ esD (finalState negDurActs 0) "X" ≤ efD (finalState negDurActs 0) "X" := by
  refine ⟨by decide, by decide, by decide, by with_unfolding_all rfl,
    by with_unfolding_all rfl, ?_⟩
  rw [show esD (finalState negDurActs 0) "X" = (0 : ℚ) from by with_unfolding_all rfl,
    show efD (finalState negDurActs 0) "X" = (-1 : ℚ) from by with_unfolding_all rfl]
  norm_num

/-- C9 (amended): on a well-formed acyclic graph whose activities all have
nonnegative durations, every activity satisfies `early_finish ≥ early_start`
and `late_finish ≥ late_start` after `calculate()`. -/
theorem finish_ge_start_amended {acts : List Activity} {now : ℚ}
    (hnd : (nodesOf acts).Nodup)
    (hdst : ∀ e ∈ edgesOf acts, e.dst ∈ nodesOf acts)
    (hac : has_cycles (nodesOf acts) (edgesOf acts) = false)
    (hdur : ∀ a ∈ acts, 0 ≤ a.duration_hours) :
    ∀ a ∈ acts,
      esD (finalState acts now) a.task_code ≤ efD (finalState acts now) a.task_code ∧
      lsD (finalState acts now) a.task_code ≤ lfD (finalState acts now) a.task_code := by
  intro a ha
  have hn : a.task_code ∈ nodesOf acts := List.mem_map.2 ⟨a, ha, rfl⟩
  obtain ⟨a', ha', hES, hEF, hLF, hLS, -⟩ := finalState_char hnd hdst hac a.task_code hn
  have haa : a' = a := by
    rw [actOf_self hnd ha] at ha'
    exact (Option.some_injective _ ha').symm
  rw [haa] at hEF hLS
  have hd := hdur a ha
  constructor
  · simp only [esD, efD]
    rw [hES, hEF]
    simp only [Option.getD_some]
    linarith
  · simp only [lsD, lfD]
    rw [hLS, hLF]
    simp only [Option.getD_some]
    linarith

/-- Witness for the amended C9 at activity B of the chain A → B → C. -/
theorem finish_ge_start_amended_witness :
    esD (finalState chainActs 0) "B" ≤ efD (finalState chainActs 0) "B" ∧
    lsD (finalState chainActs 0) "B" ≤ lfD (finalState chainActs 0) "B" :=
  finish_ge_start_amended (by decide) (by decide) (by decide)
    (by intro a ha; fin_cases ha <;> norm_num [mkAct])
    (mkAct "B" none 8 [("C", 0)]) (List.mem_cons_of_mem _ (List.mem_cons_self _ _))

/-! ### Claim C10: `Activity.is_critical` uses a strict zero threshold -/

/-- C10: the public `Activity.is_critical` returns `True` iff
`total_float_hours` is set and at most `0`; consequently an activity whose
computed float lies in `(0, 0.01]` is in the engine's critical set while its
`is_critical()` reports `False`. -/
theorem is_critical_strict_zero {acts : List Activity} {st : St} {a : Activity} {f : ℚ}
    (ha : a ∈ acts) (hf : (st a.task_code).total_float_hours = some f) :
    (∀ b : Activity, b.is_critical = true ↔ ∃ g, b.total_float_hours = some g ∧ g ≤ 0) ∧
    ((withState st a).is_critical = true ↔ f ≤ 0) ∧
    (0 < f → f ≤ 1 / 100 →
      a ∈ identifyCritical acts st ∧ (withState st a).is_critical = false) := by
  refine ⟨?_, ?_, ?_⟩
  · intro b
    unfold Activity.is_critical
    cases hb : b.total_float_hours with
    | none => simp
    | some g => simp
  · simp [Activity.is_critical, withState, hf]
  · intro h1 h2
    constructor
    · unfold identifyCritical
      rw [List.mem_filter]
      refine ⟨ha, ?_⟩
      rw [hf]
      simpa using h2
    · simp [Activity.is_critical, withState, hf]
      exact h1

/-- Witness for C10 with a concrete float of `1/200` hours. -/
theorem is_critical_strict_zero_witness :
    (∀ b : Activity, b.is_critical = true ↔ ∃ g, b.total_float_hours = some g ∧ g ≤ 0) ∧
    ((withState (fun _ => ⟨none, none, none, none, some (1 / 200)⟩)
        (mkAct "A" (some 0) 8 [("B", 0)])).is_critical = true ↔ (1 / 200 : ℚ) ≤ 0) ∧
    ((0 : ℚ) < 1 / 200 → (1 / 200 : ℚ) ≤ 1 / 100 →
      mkAct "A" (some 0) 8 [("B", 0)] ∈
        identifyCritical chainActs (fun _ => ⟨none, none, none, none, some (1 / 200)⟩) ∧
      (withState (fun _ => ⟨none, none, none, none, some (1 / 200)⟩)
        (mkAct "A" (some 0) 8 [("B", 0)])).is_critical = false) :=
  is_critical_strict_zero (List.mem_cons_self _ _) rfl

/-! ### Claim C6: the project duration -/

theorem foldl_max_init_le : ∀ (l : List ℚ) (m : ℚ), m ≤ l.foldl max m := by
  intro l
  induction l with
  | nil => intro m; exact le_refl m
  | cons x xs ih =>
    intro m
    exact le_trans (le_max_left m x) (ih (max m x))

theorem foldl_max_mem : ∀ (l : List ℚ) (m : ℚ), l.foldl max m = m ∨ l.foldl max m ∈ l := by
  intro l
  induction l with
  | nil => intro m; exact Or.inl rfl
  | cons x xs ih =>
    intro m
    rw [List.foldl_cons]
    rcases ih (max m x) with h | h
    · rcases max_choice m x with hm | hm
      · exact Or.inl (by rw [h, hm])
      · exact Or.inr (by rw [h, hm]; exact List.mem_cons_self x xs)
    · exact Or.inr (List.mem_cons_of_mem x h)

theorem foldl_min_le_init : ∀ (l : List ℚ) (m : ℚ), l.foldl min m ≤ m := by
  intro l
  induction l with
  | nil => intro m; exact le_refl m
  | cons x xs ih =>
    intro m
    exact le_trans (ih (min m x)) (min_le_left m x)

theorem filterMap_eq_map_of_some {α β : Type} {f : α → Option β} {g : α → β} :
    ∀ {l : List α}, (∀ a ∈ l, f a = some (g a)) → l.filterMap f = l.map g := by
  intro l
  induction l with
  | nil => intro _; rfl
  | cons x xs ih =>
    intro h
    rw [List.filterMap_cons, h x (List.mem_cons_self x xs), List.map_cons,
      ih fun a ha => h a (List.mem_cons_of_mem x ha)]

theorem mem_identifyCritical_of {acts : List Activity} {st : St} {a : Activity} {t : ℚ}
    (ha : a ∈ acts) (htf : (st a.task_code).total_float_hours = some t)
    (hle : t ≤ 1 / 100) : a ∈ identifyCritical acts st := by
  unfold identifyCritical
  rw [List.mem_filter]
  refine ⟨ha, ?_⟩
  rw [htf]
  simpa using hle

/-- On a nonempty well-formed acyclic input at least one activity is
critical: the activity attaining the maximal `early_finish` has
`late_finish ≤ project_end = early_finish`, hence `total_float ≤ 0`. -/
theorem exists_critical {acts : List Activity} {now : ℚ}
    (hnd : (nodesOf acts).Nodup)
    (hdst : ∀ e ∈ edgesOf acts, e.dst ∈ nodesOf acts)
    (hac : has_cycles (nodesOf acts) (edgesOf acts) = false)
    {a0 : Activity} {rest : List Activity} (hsplit : acts = a0 :: rest) :
    ∃ a ∈ acts, a ∈ identifyCritical acts (finalState acts now) := by
  have hsome : ∀ a ∈ acts, (finalState acts now a.task_code).early_finish =
      some (efD (finalState acts now) a.task_code) := by
    intro a ha
    have hn : a.task_code ∈ nodesOf acts := List.mem_map.2 ⟨a, ha, rfl⟩
    obtain ⟨a', -, -, hEF, -, -, -⟩ := finalState_char hnd hdst hac a.task_code hn
    rw [hEF]
    simp [efD, hEF]
  -- project end equals the fold of all early finishes
  have hpe : projectEnd acts (finalState acts now) now =
      (rest.map fun a => efD (finalState acts now) a.task_code).foldl max
        (efD (finalState acts now) a0.task_code) := by
    unfold projectEnd
    rw [filterMap_eq_map_of_some hsome, hsplit]
    rfl
  -- the fold is attained by some activity
  have hattain : ∃ b ∈ acts, efD (finalState acts now) b.task_code =
      projectEnd acts (finalState acts now) now := by
    rw [hpe]
    rcases foldl_max_mem (rest.map fun a => efD (finalState acts now) a.task_code)
      (efD (finalState acts now) a0.task_code) with h | h
    · exact ⟨a0, by rw [hsplit]; exact List.mem_cons_self _ _, h.symm⟩
    · obtain ⟨b, hb, hbe⟩ := List.mem_map.1 h
      exact ⟨b, by rw [hsplit]; exact List.mem_cons_of_mem _ hb, hbe⟩
  obtain ⟨b, hb, hbe⟩ := hattain
  have hn : b.task_code ∈ nodesOf acts := List.mem_map.2 ⟨b, hb, rfl⟩
  obtain ⟨b', hb', hES, hEF, hLF, hLS, hTF⟩ :=
    @finalState_char acts now hnd hdst hac b.task_code hn
  -- late finish is capped at the project end
  have hcap : bwdLFval (edgesOf acts) (projectEnd acts (finalState acts now) now)
      (finalState acts now) b.task_code ≤ projectEnd acts (finalState acts now) now := by
    unfold bwdLFval
    by_cases hempty : (succsOf (edgesOf acts) b.task_code).isEmpty
    · rw [if_pos hempty]
    · rw [if_neg hempty]
      exact foldl_min_le_init _ _
  -- hence the total float of b is nonpositive
  have htfval : tfD (finalState acts now) b.task_code ≤ 0 := by
    have h1 : lsD (finalState acts now) b.task_code =
        bwdLFval (edgesOf acts) (projectEnd acts (finalState acts now) now)
          (finalState acts now) b.task_code - b'.duration_hours := by
      simp [lsD, hLS]
    have h2 : esD (finalState acts now) b.task_code =
        fwdESval (edgesOf acts) (projectStart acts now) (finalState acts now) b.task_code := by
      simp [esD, hES]
    have h3 : efD (finalState acts now) b.task_code =
        fwdESval (edgesOf acts) (projectStart acts now) (finalState acts now) b.task_code +
          b'.duration_hours := by
      simp [efD, hEF]
    have h4 : tfD (finalState acts now) b.task_code =
        lsD (finalState acts now) b.task_code - esD (finalState acts now) b.task_code := by
      simp [tfD, hTF]
    rw [h4, h1, h2]
    have : fwdESval (edgesOf acts) (projectStart acts now) (finalState acts now) b.task_code +
        b'.duration_hours ≤ projectEnd acts (finalState acts now) now := by
      rw [← h3, hbe]
    linarith
  obtain ⟨t, ht⟩ : ∃ t, (finalState acts now b.task_code).total_float_hours = some t :=
    ⟨_, hTF⟩
  refine ⟨b, hb, mem_identifyCritical_of hb ht ?_⟩
  have : t = tfD (finalState acts now) b.task_code := by
    simp [tfD, ht]
  rw [this]
  exact le_trans htfval (by norm_num)

/-- C6: on a nonempty well-formed acyclic input, `calculate()` succeeds and
the returned project duration equals `max(early_finish) − min(early_start)`
taken over all activities. -/
theorem project_duration_eq {acts : List Activity} {now : ℚ}
    (hnd : (nodesOf acts).Nodup)
    (hdst : ∀ e ∈ edgesOf acts, e.dst ∈ nodesOf acts)
    (hac : has_cycles (nodesOf acts) (edgesOf acts) = false)
    {a0 : Activity} {rest : List Activity} (hsplit : acts = a0 :: rest) :
    ∃ paths, calculate acts now = Except.ok (paths,
      ((rest.map fun a => efD (finalState acts now) a.task_code).foldl max
          (efD (finalState acts now) a0.task_code)) -
      ((rest.map fun a => esD (finalState acts now) a.task_code).foldl min
          (esD (finalState acts now) a0.task_code))) := by
  have hessome : ∀ a ∈ acts, (finalState acts now a.task_code).early_start =
      some (esD (finalState acts now) a.task_code) := by
    intro a ha
    have hn : a.task_code ∈ nodesOf acts := List.mem_map.2 ⟨a, ha, rfl⟩
    obtain ⟨a', -, hES, -, -, -, -⟩ := finalState_char hnd hdst hac a.task_code hn
    rw [hES]
    simp [esD, hES]
  have hefsome : ∀ a ∈ acts, (finalState acts now a.task_code).early_finish =
      some (efD (finalState acts now) a.task_code) := by
    intro a ha
    have hn : a.task_code ∈ nodesOf acts := List.mem_map.2 ⟨a, ha, rfl⟩
    obtain ⟨a', -, -, hEF, -, -, -⟩ := finalState_char hnd hdst hac a.task_code hn
    rw [hEF]
    simp [efD, hEF]
  have hdur : projectDuration acts (finalState acts now) =
      ((rest.map fun a => efD (finalState acts now) a.task_code).foldl max
          (efD (finalState acts now) a0.task_code)) -
      ((rest.map fun a => esD (finalState acts now) a.task_code).foldl min
          (esD (finalState acts now) a0.task_code)) := by
    unfold projectDuration
    rw [if_neg (by rw [hsplit]; simp)]
    rw [filterMap_eq_map_of_some hessome, filterMap_eq_map_of_some hefsome, hsplit]
    rfl
  obtain ⟨b, -, hbc⟩ := exists_critical hnd hdst hac hsplit
  have hne : (identifyCritical acts (finalState acts now)).isEmpty = false := by
    cases hcase : (identifyCritical acts (finalState acts now)).isEmpty
    · rfl
    · rw [List.isEmpty_iff.1 hcase] at hbc
      exact absurd hbc (List.not_mem_nil b)
  refine ⟨findCriticalPaths acts (edgesOf acts) (nodesOf acts)
    (identifyCritical acts (finalState acts now)), ?_⟩
  unfold calculate
  rw [hac]
  simp only [Bool.false_eq_true, if_false, hne, hdur]

/-! ### Claim C8: preliminaries — the second run sees the same graph -/

theorem withState_code {st : St} {a : Activity} : (withState st a).task_code = a.task_code :=
  rfl

theorem nodesOf_withState {acts : List Activity} {st : St} :
    nodesOf (acts.map (withState st)) = nodesOf acts := by
  unfold nodesOf
  rw [List.map_map]
  rfl

theorem edgesOf_withState {acts : List Activity} {st : St} :
    edgesOf (acts.map (withState st)) = edgesOf acts := by
  unfold edgesOf
  induction acts with
  | nil => rfl
  | cons a rest ih =>
    simp only [List.map_cons, List.flatMap_cons]
    rw [ih]
    rfl

theorem projectStart_withState {acts : List Activity} {st : St} {now : ℚ} :
    projectStart (acts.map (withState st)) now = projectStart acts now := by
  unfold projectStart
  rw [List.filterMap_map]
  rfl

theorem actOf_withState {acts : List Activity} {st : St} {c : String} :
    actOf (acts.map (withState st)) c = (actOf acts c).map (withState st) := by
  unfold actOf
  induction acts with
  | nil => rfl
  | cons a rest ih =>
    simp only [List.map_cons, List.find?_cons]
    by_cases h : (a.task_code == c) = true
    · rw [show ((withState st a).task_code == c) = true from h, h]
      rfl
    · rw [show ((withState st a).task_code == c) = (a.task_code == c) from rfl]
      rw [Bool.not_eq_true] at h
      rw [h]
      exact ih

theorem foldl_max_shift {δ : ℚ} :
    ∀ (l : List ℚ) (m : ℚ), (l.map (· + δ)).foldl max (m + δ) = l.foldl max m + δ := by
  intro l
  induction l with
  | nil => intro m; rfl
  | cons x xs ih =>
    intro m
    simp only [List.map_cons, List.foldl_cons]
    rw [max_add_add_right, ih]

theorem foldl_min_shift {δ : ℚ} :
    ∀ (l : List ℚ) (m : ℚ), (l.map (· + δ)).foldl min (m + δ) = l.foldl min m + δ := by
  intro l
  induction l with
  | nil => intro m; rfl
  | cons x xs ih =>
    intro m
    simp only [List.map_cons, List.foldl_cons]
    rw [min_add_add_right, ih]

/-- Two states satisfying the forward-pass characterization for the same
project start agree on `early_start` and `early_finish` at every node:
the recurrence determines the pass output uniquely along the topological
order. -/
theorem forward_unique {acts : List Activity} {l : List String} {ps : ℚ} {F G : St}
    (hnd : (nodesOf acts).Nodup)
    (hl : topoSort (nodesOf acts) (edgesOf acts) = some l)
    (hF : ∀ n ∈ nodesOf acts, ∃ a, actOf acts n = some a ∧
      (F n).early_start = some (fwdESval (edgesOf acts) ps F n) ∧
      (F n).early_finish = some (fwdESval (edgesOf acts) ps F n + a.duration_hours))
    (hG : ∀ n ∈ nodesOf acts, ∃ a, actOf acts n = some a ∧
      (G n).early_start = some (fwdESval (edgesOf acts) ps G n) ∧
      (G n).early_finish = some (fwdESval (edgesOf acts) ps G n + a.duration_hours)) :
    ∀ n ∈ nodesOf acts,
      (F n).early_start = (G n).early_start ∧ (F n).early_finish = (G n).early_finish := by
  have hperm := topoSort_perm hl
  have main : ∀ (k : Nat) (l₁ : List String) (n : String) (l₂ : List String),
      l = l₁ ++ n :: l₂ → l₁.length ≤ k → n ∈ nodesOf acts →
      (F n).early_start = (G n).early_start ∧ (F n).early_finish = (G n).early_finish := by
    intro k
    induction k with
    | zero =>
      intro l₁ n l₂ hsplit hlen hn
      have hl₁ : l₁ = [] := List.length_eq_zero.1 (Nat.le_zero.1 hlen)
      have hagree : ∀ p ∈ predsOf (edgesOf acts) n,
          (F p).early_finish = (G p).early_finish := by
        intro p hp
        have := topoSort_ord hl n l₁ l₂ hsplit p (mem_predsOf.1 hp) (predsOf_mem_nodes hp)
        rw [hl₁] at this
        exact absurd this (List.not_mem_nil p)
      have hval : fwdESval (edgesOf acts) ps F n = fwdESval (edgesOf acts) ps G n :=
        fwdESval_congr hagree
      obtain ⟨a, ha, hFes, hFef⟩ := hF n hn
      obtain ⟨a', ha', hGes, hGef⟩ := hG n hn
      have haa : a' = a := by
        rw [ha] at ha'
        exact (Option.some_injective _ ha').symm
      rw [haa] at hGef
      exact ⟨by rw [hFes, hGes, hval], by rw [hFef, hGef, hval]⟩
    | succ k ih =>
      intro l₁ n l₂ hsplit hlen hn
      have hagree : ∀ p ∈ predsOf (edgesOf acts) n,
          (F p).early_finish = (G p).early_finish := by
        intro p hp
        have hpl₁ : p ∈ l₁ :=
          topoSort_ord hl n l₁ l₂ hsplit p (mem_predsOf.1 hp) (predsOf_mem_nodes hp)
        obtain ⟨u, v, huv⟩ := List.append_of_mem hpl₁
        have hulen : u.length ≤ k := by
          have : u.length < l₁.length := by
            rw [huv]
            simp
          omega
        have hsplit2 : l = u ++ p :: (v ++ n :: l₂) := by
          rw [hsplit, huv]
          simp
        exact (ih u p (v ++ n :: l₂) hsplit2 hulen (predsOf_mem_nodes hp)).2
      have hval : fwdESval (edgesOf acts) ps F n = fwdESval (edgesOf acts) ps G n :=
        fwdESval_congr hagree
      obtain ⟨a, ha, hFes, hFef⟩ := hF n hn
      obtain ⟨a', ha', hGes, hGef⟩ := hG n hn
      have haa : a' = a := by
        rw [ha] at ha'
        exact (Option.some_injective _ ha').symm
      rw [haa] at hGef
      exact ⟨by rw [hFes, hGes, hval], by rw [hFef, hGef, hval]⟩
  intro n hn
  have hln : n ∈ l := hperm.mem_iff.2 hn
  obtain ⟨l₁, l₂, hsplit⟩ := List.append_of_mem hln
  exact main l₁.length l₁ n l₂ hsplit le_rfl hn

/-- Two states satisfying the backward-pass characterization for the same
project end agree on `late_start` and `late_finish` at every node. -/
theorem backward_unique {acts : List Activity} {l : List String} {pe : ℚ} {F G : St}
    (hnd : (nodesOf acts).Nodup)
    (hl : topoSort (nodesOf acts) (edgesOf acts) = some l)
    (hdst : ∀ e ∈ edgesOf acts, e.dst ∈ nodesOf acts)
    (hF : ∀ n ∈ nodesOf acts, ∃ a, actOf acts n = some a ∧
      (F n).late_finish = some (bwdLFval (edgesOf acts) pe F n) ∧
      (F n).late_start = some (bwdLFval (edgesOf acts) pe F n - a.duration_hours))
    (hG : ∀ n ∈ nodesOf acts, ∃ a, actOf acts n = some a ∧
      (G n).late_finish = some (bwdLFval (edgesOf acts) pe G n) ∧
      (G n).late_start = some (bwdLFval (edgesOf acts) pe G n - a.duration_hours)) :
    ∀ n ∈ nodesOf acts,
      (F n).late_start = (G n).late_start ∧ (F n).late_finish = (G n).late_finish := by
  have hperm := topoSort_perm hl
  have main : ∀ (k : Nat) (r₁ : List String) (n : String) (r₂ : List String),
      l.reverse = r₁ ++ n :: r₂ → r₁.length ≤ k → n ∈ nodesOf acts →
      (F n).late_start = (G n).late_start ∧ (F n).late_finish = (G n).late_finish := by
    intro k
    induction k with
    | zero =>
      intro r₁ n r₂ hsplit hlen hn
      have hr₁ : r₁ = [] := List.length_eq_zero.1 (Nat.le_zero.1 hlen)
      have hagree : ∀ s ∈ succsOf (edgesOf acts) n,
          (F s).late_start = (G s).late_start := by
        intro s hs
        have := topoSort_ord_rev hnd hl n r₁ r₂ hsplit s (mem_succsOf.1 hs)
          (succsOf_mem_nodes hdst hs)
        rw [hr₁] at this
        exact absurd this (List.not_mem_nil s)
      have hval : bwdLFval (edgesOf acts) pe F n = bwdLFval (edgesOf acts) pe G n :=
        bwdLFval_congr hagree
      obtain ⟨a, ha, hFlf, hFls⟩ := hF n hn
      obtain ⟨a', ha', hGlf, hGls⟩ := hG n hn
      have haa : a' = a := by
        rw [ha] at ha'
        exact (Option.some_injective _ ha').symm
      rw [haa] at hGls
      exact ⟨by rw [hFls, hGls, hval], by rw [hFlf, hGlf, hval]⟩
    | succ k ih =>
      intro r₁ n r₂ hsplit hlen hn
      have hagree : ∀ s ∈ succsOf (edgesOf acts) n,
          (F s).late_start = (G s).late_start := by
        intro s hs
        have hsr₁ : s ∈ r₁ := topoSort_ord_rev hnd hl n r₁ r₂ hsplit s (mem_succsOf.1 hs)
          (succsOf_mem_nodes hdst hs)
        obtain ⟨u, v, huv⟩ := List.append_of_mem hsr₁
        have hulen : u.length ≤ k := by
          have : u.length < r₁.length := by
            rw [huv]
            simp
          omega
        have hsplit2 : l.reverse = u ++ s :: (v ++ n :: r₂) := by
          rw [hsplit, huv]
          simp
        exact (ih u s (v ++ n :: r₂) hsplit2 hulen (succsOf_mem_nodes hdst hs)).1
      have hval : bwdLFval (edgesOf acts) pe F n = bwdLFval (edgesOf acts) pe G n :=
        bwdLFval_congr hagree
      obtain ⟨a, ha, hFlf, hFls⟩ := hF n hn
      obtain ⟨a', ha', hGlf, hGls⟩ := hG n hn
      have haa : a' = a := by
        rw [ha] at ha'
        exact (Option.some_injective _ ha').symm
      rw [haa] at hGls
      exact ⟨by rw [hFls, hGls, hval], by rw [hFlf, hGlf, hval]⟩
  intro n hn
  have hln : n ∈ l.reverse := List.mem_reverse.2 (hperm.mem_iff.2 hn)
  obtain ⟨r₁, r₂, hsplit⟩ := List.append_of_mem hln
  exact main r₁.length r₁ n r₂ hsplit le_rfl hn

theorem fwdESval_shift {es : List Edge} {ps δ : ℚ} {st : St} {n : String}
    (hsome : ∀ p ∈ predsOf es n, ((st p).early_finish).isSome) :
    fwdESval es (ps + δ) (shiftSt δ st) n = fwdESval es ps st n + δ := by
  unfold fwdESval
  by_cases hempty : (predsOf es n).isEmpty
  · rw [if_pos hempty, if_pos hempty]
  · rw [if_neg hempty, if_neg hempty]
    have hmap : ((predsOf es n).map fun p => efD (shiftSt δ st) p + lagOf es p n) =
        (((predsOf es n).map fun p => efD st p + lagOf es p n).map (· + δ)) := by
      rw [List.map_map]
      refine List.map_congr_left ?_
      intro p hp
      obtain ⟨q, hq⟩ := Option.isSome_iff_exists.1 (hsome p hp)
      show efD (shiftSt δ st) p + lagOf es p n = efD st p + lagOf es p n + δ
      rw [show efD (shiftSt δ st) p = q + δ by simp [efD, shiftSt, hq],
        show efD st p = q by simp [efD, hq]]
      ring
    rw [hmap, foldl_max_shift]

theorem bwdLFval_shift {es : List Edge} {pe δ : ℚ} {st : St} {n : String}
    (hsome : ∀ s ∈ succsOf es n, ((st s).late_start).isSome) :
    bwdLFval es (pe + δ) (shiftSt δ st) n = bwdLFval es pe st n + δ := by
  unfold bwdLFval
  by_cases hempty : (succsOf es n).isEmpty
  · rw [if_pos hempty, if_pos hempty]
  · rw [if_neg hempty, if_neg hempty]
    have hmap : ((succsOf es n).map fun s => lsD (shiftSt δ st) s - lagOf es n s) =
        (((succsOf es n).map fun s => lsD st s - lagOf es n s).map (· + δ)) := by
      rw [List.map_map]
      refine List.map_congr_left ?_
      intro s hs
      obtain ⟨q, hq⟩ := Option.isSome_iff_exists.1 (hsome s hs)
      show lsD (shiftSt δ st) s - lagOf es n s = lsD st s - lagOf es n s + δ
      rw [show lsD (shiftSt δ st) s = q + δ by simp [lsD, shiftSt, hq],
        show lsD st s = q by simp [lsD, hq]]
      ring
    rw [hmap, foldl_min_shift]

theorem filterMap_shiftSt_ef {δ : ℚ} {F : St} :
    ∀ (acts : List Activity),
      (acts.filterMap fun a => ((shiftSt δ F) a.task_code).early_finish) =
        (acts.filterMap fun a => (F a.task_code).early_finish).map (· + δ) := by
  intro acts
  induction acts with
  | nil => rfl
  | cons a rest ih =>
    simp only [List.filterMap_cons]
    cases h : (F a.task_code).early_finish with
    | none =>
      rw [show ((shiftSt δ F) a.task_code).early_finish = none by simp [shiftSt, h]]
      exact ih
    | some q =>
      rw [show ((shiftSt δ F) a.task_code).early_finish = some (q + δ) by simp [shiftSt, h]]
      rw [ih]
      rfl

theorem filterMap_shiftSt_es {δ : ℚ} {F : St} :
    ∀ (acts : List Activity),
      (acts.filterMap fun a => ((shiftSt δ F) a.task_code).early_start) =
        (acts.filterMap fun a => (F a.task_code).early_start).map (· + δ) := by
  intro acts
  induction acts with
  | nil => rfl
  | cons a rest ih =>
    simp only [List.filterMap_cons]
    cases h : (F a.task_code).early_start with
    | none =>
      rw [show ((shiftSt δ F) a.task_code).early_start = none by simp [shiftSt, h]]
      exact ih
    | some q =>
      rw [show ((shiftSt δ F) a.task_code).early_start = some (q + δ) by simp [shiftSt, h]]
      rw [ih]
      rfl

theorem projectEnd_withState {acts : List Activity} {st G : St} {now : ℚ} :
    projectEnd (acts.map (withState st)) G now = projectEnd acts G now := by
  unfold projectEnd
  rw [List.filterMap_map]
  rfl

theorem projectEnd_shift {acts : List Activity} {F : St} {δ now1 now2 : ℚ}
    {a0 : Activity} {rest : List Activity} (hsplit : acts = a0 :: rest)
    (hsome : ∀ a ∈ acts, ((F a.task_code).early_finish).isSome) :
    projectEnd acts (shiftSt δ F) now2 = projectEnd acts F now1 + δ := by
  unfold projectEnd
  rw [filterMap_shiftSt_ef]
  cases hcase : acts.filterMap fun a => (F a.task_code).early_finish with
  | nil =>
    obtain ⟨q, hq⟩ := Option.isSome_iff_exists.1
      (hsome a0 (by rw [hsplit]; exact List.mem_cons_self _ _))
    rw [hsplit] at hcase
    simp only [List.filterMap_cons, hq] at hcase
    exact (List.cons_ne_nil _ _ hcase).elim
  | cons x xs =>
    simp only [List.map_cons]
    exact foldl_max_shift xs x

/-- The state computed by a second `calculate()` run — on the activities
mutated by the first run, at a possibly different wall-clock reading — is
the first run's state shifted uniformly by the project-start drift, with
identical total floats. -/
theorem second_run_state {acts : List Activity} {now1 now2 : ℚ}
    (hnd : (nodesOf acts).Nodup)
    (hdst : ∀ e ∈ edgesOf acts, e.dst ∈ nodesOf acts)
    (hac : has_cycles (nodesOf acts) (edgesOf acts) = false)
    {a0 : Activity} {rest : List Activity} (hsplit : acts = a0 :: rest) :
    ∀ n ∈ nodesOf acts,
      (finalState (acts.map (withState (finalState acts now1))) now2 n).early_start =
        ((finalState acts now1 n).early_start).map
          (· + (projectStart acts now2 - projectStart acts now1)) ∧
      (finalState (acts.map (withState (finalState acts now1))) now2 n).early_finish =
        ((finalState acts now1 n).early_finish).map
          (· + (projectStart acts now2 - projectStart acts now1)) ∧
      (finalState (acts.map (withState (finalState acts now1))) now2 n).late_start =
        ((finalState acts now1 n).late_start).map
          (· + (projectStart acts now2 - projectStart acts now1)) ∧
      (finalState (acts.map (withState (finalState acts now1))) now2 n).late_finish =
        ((finalState acts now1 n).late_finish).map
          (· + (projectStart acts now2 - projectStart acts now1)) ∧
      (finalState (acts.map (withState (finalState acts now1))) now2 n).total_float_hours =
        (finalState acts now1 n).total_float_hours := by
  set F1 := finalState acts now1 with hF1def
  set δ := projectStart acts now2 - projectStart acts now1 with hδdef
  set A2 := acts.map (withState F1) with hA2def
  set F2 := finalState A2 now2 with hF2def
  have hn2 : nodesOf A2 = nodesOf acts := by rw [hA2def]; exact nodesOf_withState
  have he2 : edgesOf A2 = edgesOf acts := by rw [hA2def]; exact edgesOf_withState
  have hp2 : projectStart A2 now2 = projectStart acts now2 := by
    rw [hA2def]; exact projectStart_withState
  have hpeW : projectEnd A2 F2 now2 = projectEnd acts F2 now2 := by
    rw [hA2def]; exact projectEnd_withState
  have hnd2 : (nodesOf A2).Nodup := by rw [hn2]; exact hnd
  have hdst2 : ∀ e ∈ edgesOf A2, e.dst ∈ nodesOf A2 := by rw [he2, hn2]; exact hdst
  have hac2 : has_cycles (nodesOf A2) (edgesOf A2) = false := by rw [he2, hn2]; exact hac
  obtain ⟨l, hl⟩ := exists_topoSort_of_not_cycles hac
  have char1 := @finalState_char acts now1 hnd hdst hac
  have char2 := @finalState_char A2 now2 hnd2 hdst2 hac2
  rw [hn2, he2, hp2, hpeW] at char2
  rw [← hF2def] at char2
  rw [← hF1def] at char1
  have hps : projectStart acts now2 = projectStart acts now1 + δ := by rw [hδdef]; ring
  have hsome_ef : ∀ p ∈ nodesOf acts, ((F1 p).early_finish).isSome := by
    intro p hp
    obtain ⟨b, -, -, hEFp, -, -, -⟩ := char1 p hp
    rw [hEFp]
    rfl
  have hsome_ls : ∀ p ∈ nodesOf acts, ((F1 p).late_start).isSome := by
    intro p hp
    obtain ⟨b, -, -, -, -, hLSp, -⟩ := char1 p hp
    rw [hLSp]
    rfl
  have hF2fwd : ∀ n ∈ nodesOf acts, ∃ a, actOf acts n = some a ∧
      (F2 n).early_start = some (fwdESval (edgesOf acts) (projectStart acts now2) F2 n) ∧
      (F2 n).early_finish =
        some (fwdESval (edgesOf acts) (projectStart acts now2) F2 n + a.duration_hours) := by
    intro n hn
    obtain ⟨a2, ha2, h1, h2, -, -, -⟩ := char2 n hn
    rw [hA2def, actOf_withState] at ha2
    cases hA : actOf acts n with
    | none =>
      rw [hA] at ha2
      exact absurd ha2 (by simp)
    | some a =>
      rw [hA] at ha2
      have ha2' : a2 = withState F1 a := by simpa using ha2.symm
      refine ⟨a, rfl, h1, ?_⟩
      rw [h2, ha2']
      rfl
  have hGfwd : ∀ n ∈ nodesOf acts, ∃ a, actOf acts n = some a ∧
      ((shiftSt δ F1) n).early_start =
        some (fwdESval (edgesOf acts) (projectStart acts now2) (shiftSt δ F1) n) ∧
      ((shiftSt δ F1) n).early_finish =
        some (fwdESval (edgesOf acts) (projectStart acts now2) (shiftSt δ F1) n +
          a.duration_hours) := by
    intro n hn
    obtain ⟨a, ha, hES1, hEF1, -, -, -⟩ := char1 n hn
    have hsp : ∀ p ∈ predsOf (edgesOf acts) n, ((F1 p).early_finish).isSome :=
      fun p hp => hsome_ef p (predsOf_mem_nodes hp)
    have hshift := @fwdESval_shift (edgesOf acts) (projectStart acts now1) δ F1 n hsp
    refine ⟨a, ha, ?_, ?_⟩
    · show ((F1 n).early_start).map (· + δ) = _
      rw [hES1, hps, hshift]
      rfl
    · show ((F1 n).early_finish).map (· + δ) = _
      rw [hEF1, hps, hshift]
      show some (fwdESval (edgesOf acts) (projectStart acts now1) F1 n + a.duration_hours + δ) =
        some (fwdESval (edgesOf acts) (projectStart acts now1) F1 n + δ + a.duration_hours)
      congr 1
      ring
  have hfw := forward_unique hnd hl hF2fwd hGfwd
  have hpe : projectEnd acts F2 now2 = projectEnd acts F1 now1 + δ := by
    have h1 : projectEnd acts F2 now2 = projectEnd acts (shiftSt δ F1) now2 :=
      projectEnd_congr fun a ha => (hfw a.task_code (List.mem_map.2 ⟨a, ha, rfl⟩)).2
    rw [h1]
    exact projectEnd_shift hsplit fun a ha => hsome_ef a.task_code (List.mem_map.2 ⟨a, ha, rfl⟩)
  have hF2bwd : ∀ n ∈ nodesOf acts, ∃ a, actOf acts n = some a ∧
      (F2 n).late_finish =
        some (bwdLFval (edgesOf acts) (projectEnd acts F1 now1 + δ) F2 n) ∧
      (F2 n).late_start =
        some (bwdLFval (edgesOf acts) (projectEnd acts F1 now1 + δ) F2 n -
          a.duration_hours) := by
    intro n hn
    obtain ⟨a2, ha2, -, -, h3, h4, -⟩ := char2 n hn
    rw [hpe] at h3 h4
    rw [hA2def, actOf_withState] at ha2
    cases hA : actOf acts n with
    | none =>
      rw [hA] at ha2
      exact absurd ha2 (by simp)
    | some a =>
      rw [hA] at ha2
      have ha2' : a2 = withState F1 a := by simpa using ha2.symm
      refine ⟨a, rfl, h3, ?_⟩
      rw [h4, ha2']
      rfl
  have hGbwd : ∀ n ∈ nodesOf acts, ∃ a, actOf acts n = some a ∧
      ((shiftSt δ F1) n).late_finish =
        some (bwdLFval (edgesOf acts) (projectEnd acts F1 now1 + δ) (shiftSt δ F1) n) ∧
      ((shiftSt δ F1) n).late_start =
        some (bwdLFval (edgesOf acts) (projectEnd acts F1 now1 + δ) (shiftSt δ F1) n -
          a.duration_hours) := by
    intro n hn
    obtain ⟨a, ha, -, -, hLF1, hLS1, -⟩ := char1 n hn
    have hss : ∀ s ∈ succsOf (edgesOf acts) n, ((F1 s).late_start).isSome :=
      fun s hs => hsome_ls s (succsOf_mem_nodes hdst hs)
    have hshift := @bwdLFval_shift (edgesOf acts) (projectEnd acts F1 now1) δ F1 n hss
    refine ⟨a, ha, ?_, ?_⟩
    · show ((F1 n).late_finish).map (· + δ) = _
      rw [hLF1, hshift]
      rfl
    · show ((F1 n).late_start).map (· + δ) = _
      rw [hLS1, hshift]
      show some (bwdLFval (edgesOf acts) (projectEnd acts F1 now1) F1 n - a.duration_hours + δ) =
        some (bwdLFval (edgesOf acts) (projectEnd acts F1 now1) F1 n + δ - a.duration_hours)
      congr 1
      ring
  have hbw := backward_unique hnd hl hdst hF2bwd hGbwd
  have htf : ∀ n ∈ nodesOf acts, (F2 n).total_float_hours = (F1 n).total_float_hours := by
    intro n hn
    obtain ⟨a1, -, hES1, -, -, hLS1, hTF1⟩ := char1 n hn
    obtain ⟨a2, -, -, -, -, -, hTF2⟩ := char2 n hn
    rw [hTF2, hTF1]
    congr 1
    have hv1 : lsD F2 n =
        bwdLFval (edgesOf acts) (projectEnd acts F1 now1) F1 n - a1.duration_hours + δ := by
      rw [lsD, (hbw n hn).1]
      show (((F1 n).late_start).map (· + δ)).getD 0 = _
      rw [hLS1]
      rfl
    have hv2 : esD F2 n =
        fwdESval (edgesOf acts) (projectStart acts now1) F1 n + δ := by
      rw [esD, (hfw n hn).1]
      show (((F1 n).early_start).map (· + δ)).getD 0 = _
      rw [hES1]
      rfl
    have hv3 : lsD F1 n =
        bwdLFval (edgesOf acts) (projectEnd acts F1 now1) F1 n - a1.duration_hours := by
      rw [lsD, hLS1]
      rfl
    have hv4 : esD F1 n = fwdESval (edgesOf acts) (projectStart acts now1) F1 n := by
      rw [esD, hES1]
      rfl
    rw [hv1, hv2, hv3, hv4]
    ring
  intro n hn
  exact ⟨(hfw n hn).1, (hfw n hn).2, (hbw n hn).1, (hbw n hn).2, htf n hn⟩

theorem filterMap_option_map {α β γ : Type} {f : α → Option β} {g : β → γ} :
    ∀ (l : List α), (l.filterMap fun a => (f a).map g) = (l.filterMap f).map g := by
  intro l
  induction l with
  | nil => rfl
  | cons a rest ih =>
    simp only [List.filterMap_cons]
    cases h : f a with
    | none => simpa using ih
    | some b =>
      simp only [Option.map_some']
      rw [ih]
      rfl

theorem pathDuration_withState {acts : List Activity} {st : St} {p : List String} :
    pathDuration (acts.map (withState st)) p = pathDuration acts p := by
  unfold pathDuration
  congr 1
  refine List.map_congr_left ?_
  intro c _
  rw [actOf_withState]
  cases actOf acts c <;> rfl

theorem codeToAct_code_withState {acts : List Activity} {st : St} {c : String} :
    (codeToAct (acts.map (withState st)) c).task_code = (codeToAct acts c).task_code := by
  unfold codeToAct
  rw [actOf_withState]
  cases actOf acts c <;> rfl

theorem maxPathDuration_withState {acts : List Activity} {st : St}
    {nodes : List String} {es : List Edge} {codes : List String} :
    maxPathDuration (acts.map (withState st)) nodes es codes =
      maxPathDuration acts nodes es codes := by
  unfold maxPathDuration
  rw [show (allPathsOf nodes es codes).map (pathDuration (acts.map (withState st))) =
    (allPathsOf nodes es codes).map (pathDuration acts) from
    List.map_congr_left fun p _ => pathDuration_withState]

theorem findCriticalPaths_withState_codes {acts : List Activity} {st : St}
    {es : List Edge} {nodes : List String} {crit : List Activity} :
    (findCriticalPaths (acts.map (withState st)) es nodes
        (crit.map (withState st))).map (List.map Activity.task_code) =
      (findCriticalPaths acts es nodes crit).map (List.map Activity.task_code) := by
  unfold findCriticalPaths
  have hcodes : (crit.map (withState st)).map (·.task_code) = crit.map (·.task_code) := by
    rw [List.map_map]
    rfl
  rw [hcodes]
  by_cases hse : ((subStartsOf nodes es (crit.map (·.task_code))).isEmpty ||
      (subSinksOf nodes es (crit.map (·.task_code))).isEmpty)
  · rw [if_pos hse, if_pos hse]
    simp only [List.map_cons, List.map_nil]
    rw [show (crit.map (withState st)).map Activity.task_code =
      crit.map Activity.task_code from by rw [List.map_map]; rfl]
  · rw [if_neg hse, if_neg hse]
    by_cases hap : (allPathsOf nodes es (crit.map (·.task_code))).isEmpty
    · rw [if_pos hap, if_pos hap]
      simp only [List.map_cons, List.map_nil]
      rw [show (crit.map (withState st)).map Activity.task_code =
        crit.map Activity.task_code from by rw [List.map_map]; rfl]
    · rw [if_neg hap, if_neg hap]
      rw [maxPathDuration_withState]
      rw [show (allPathsOf nodes es (crit.map (·.task_code))).filter
          (fun p => decide (|pathDuration (acts.map (withState st)) p -
            maxPathDuration acts nodes es (crit.map (·.task_code))| < 1 / 100)) =
        (allPathsOf nodes es (crit.map (·.task_code))).filter
          (fun p => decide (|pathDuration acts p -
            maxPathDuration acts nodes es (crit.map (·.task_code))| < 1 / 100)) from
        List.filter_congr fun p _ => by rw [pathDuration_withState]]
      rw [List.map_map, List.map_map]
      refine List.map_congr_left ?_
      intro p _
      show (p.map (codeToAct (acts.map (withState st)))).map Activity.task_code =
        (p.map (codeToAct acts)).map Activity.task_code
      rw [List.map_map, List.map_map]
      refine List.map_congr_left ?_
      intro c _
      exact codeToAct_code_withState

theorem projectDuration_withState {acts : List Activity} {st G : St} :
    projectDuration (acts.map (withState st)) G = projectDuration acts G := by
  unfold projectDuration
  rw [show (acts.map (withState st)).isEmpty = acts.isEmpty from by cases acts <;> rfl]
  rw [List.filterMap_map, List.filterMap_map]
  rfl

theorem projectDuration_shift_eq {acts : List Activity} {F1 F2 : St} {δ : ℚ}
    (hes : ∀ a ∈ acts, (F2 a.task_code).early_start =
      ((F1 a.task_code).early_start).map (· + δ))
    (hef : ∀ a ∈ acts, (F2 a.task_code).early_finish =
      ((F1 a.task_code).early_finish).map (· + δ)) :
    projectDuration acts F2 = projectDuration acts F1 := by
  unfold projectDuration
  by_cases hempty : acts.isEmpty
  · rw [if_pos hempty, if_pos hempty]
  · rw [if_neg hempty, if_neg hempty]
    have h1 : acts.filterMap (fun a => (F2 a.task_code).early_start) =
        (acts.filterMap fun a => (F1 a.task_code).early_start).map (· + δ) :=
      (List.filterMap_congr hes).trans (filterMap_option_map acts)
    have h2 : acts.filterMap (fun a => (F2 a.task_code).early_finish) =
        (acts.filterMap fun a => (F1 a.task_code).early_finish).map (· + δ) :=
      (List.filterMap_congr hef).trans (filterMap_option_map acts)
    rw [h1, h2]
    cases acts.filterMap (fun a => (F1 a.task_code).early_start) with
    | nil => simp
    | cons x xs =>
      cases acts.filterMap (fun a => (F1 a.task_code).early_finish) with
      | nil => simp
      | cons y ys =>
        simp only [List.map_cons]
        rw [foldl_max_shift, foldl_min_shift]
        ring

theorem identifyCritical_second {acts : List Activity} {st F1 F2 : St}
    (htf : ∀ a ∈ acts, (F2 a.task_code).total_float_hours =
      (F1 a.task_code).total_float_hours) :
    identifyCritical (acts.map (withState st)) F2 =
      (identifyCritical acts F1).map (withState st) := by
  unfold identifyCritical
  rw [List.filter_map]
  congr 1
  refine List.filter_congr ?_
  intro a ha
  show (match (F2 (withState st a).task_code).total_float_hours with
    | some f => decide (f ≤ 1 / 100)
    | none => false) = _
  rw [show (withState st a).task_code = a.task_code from rfl, htf a ha]

/-- C8: running `calculate()` a second time, on the same activity and
dependency input as mutated by the first run, yields identical critical
paths (as task-code sequences, the identity of the returned activity
objects) and the same project duration — for any wall-clock readings of the
two runs. -/
theorem calculate_idempotent {acts : List Activity} {now1 now2 : ℚ}
    (hnd : (nodesOf acts).Nodup)
    (hdst : ∀ e ∈ edgesOf acts, e.dst ∈ nodesOf acts) :
    resultSig (calculate (acts.map (withState (finalState acts now1))) now2) =
      resultSig (calculate acts now1) := by
  have hn2 : nodesOf (acts.map (withState (finalState acts now1))) = nodesOf acts :=
    nodesOf_withState
  have he2 : edgesOf (acts.map (withState (finalState acts now1))) = edgesOf acts :=
    edgesOf_withState
  by_cases hac : has_cycles (nodesOf acts) (edgesOf acts) = true
  · have hac2 : has_cycles (nodesOf (acts.map (withState (finalState acts now1))))
        (edgesOf (acts.map (withState (finalState acts now1)))) = true := by
      rw [hn2, he2]
      exact hac
    unfold calculate
    rw [if_pos hac, if_pos hac2]
  · have hacf : has_cycles (nodesOf acts) (edgesOf acts) = false :=
      Bool.eq_false_iff.2 hac
    by_cases hnil : acts = []
    · subst hnil
      rfl
    · obtain ⟨a0, rest, hacts⟩ := List.exists_cons_of_ne_nil hnil
      have hsr := @second_run_state acts now1 now2 hnd hdst hacf a0 rest hacts
      have htfall : ∀ a ∈ acts,
          (finalState (acts.map (withState (finalState acts now1))) now2
            a.task_code).total_float_hours =
          (finalState acts now1 a.task_code).total_float_hours :=
        fun a ha => (hsr a.task_code (List.mem_map.2 ⟨a, ha, rfl⟩)).2.2.2.2
      have hcrit : identifyCritical (acts.map (withState (finalState acts now1)))
            (finalState (acts.map (withState (finalState acts now1))) now2) =
          (identifyCritical acts (finalState acts now1)).map
            (withState (finalState acts now1)) :=
        identifyCritical_second htfall
      have hac2 : ¬ has_cycles (nodesOf (acts.map (withState (finalState acts now1))))
          (edgesOf (acts.map (withState (finalState acts now1)))) = true := by
        rw [hn2, he2]
        exact hac
      unfold calculate
      rw [if_neg hac, if_neg hac2]
      by_cases hce : (identifyCritical acts (finalState acts now1)).isEmpty = true
      · have hce2 : (identifyCritical (acts.map (withState (finalState acts now1)))
            (finalState (acts.map (withState (finalState acts now1))) now2)).isEmpty
              = true := by
          rw [hcrit, List.isEmpty_iff.1 hce]
          rfl
        rw [if_pos hce, if_pos hce2]
      · have hce2 : ¬ (identifyCritical (acts.map (withState (finalState acts now1)))
            (finalState (acts.map (withState (finalState acts now1))) now2)).isEmpty
              = true := by
          rw [hcrit]
          intro hh
          rw [List.isEmpty_iff] at hh
          rcases hl1 : identifyCritical acts (finalState acts now1) with _ | ⟨c, cs⟩
          · exact hce (by rw [hl1]; rfl)
          · rw [hl1] at hh
            simp at hh
        rw [if_neg hce, if_neg hce2]
      -- compare the observable signatures of the two ok results
        have hpaths : (findCriticalPaths (acts.map (withState (finalState acts now1)))
              (edgesOf (acts.map (withState (finalState acts now1))))
              (nodesOf (acts.map (withState (finalState acts now1))))
              (identifyCritical (acts.map (withState (finalState acts now1)))
                (finalState (acts.map (withState (finalState acts now1))) now2))).map
              (List.map Activity.task_code) =
            (findCriticalPaths acts (edgesOf acts) (nodesOf acts)
              (identifyCritical acts (finalState acts now1))).map
              (List.map Activity.task_code) := by
          rw [he2, hn2, hcrit]
          exact findCriticalPaths_withState_codes
        have hdur : projectDuration (acts.map (withState (finalState acts now1)))
              (finalState (acts.map (withState (finalState acts now1))) now2) =
            projectDuration acts (finalState acts now1) := by
          rw [projectDuration_withState]
          exact projectDuration_shift_eq
            (fun a ha => (hsr a.task_code (List.mem_map.2 ⟨a, ha, rfl⟩)).1)
            (fun a ha => (hsr a.task_code (List.mem_map.2 ⟨a, ha, rfl⟩)).2.1)
        show Except.ok (_, _) = Except.ok (_, _)
        rw [Except.ok.injEq, Prod.mk.injEq]
        exact ⟨hpaths, hdur⟩

/-- Witness for C8 on the chain A → B → C, with wall-clock readings `5` and
`7` for the two runs. -/
theorem calculate_idempotent_witness :
    resultSig (calculate (chainActs.map (withState (finalState chainActs 5))) 7) =
      resultSig (calculate chainActs 5) :=
  calculate_idempotent (by decide) (by decide)

/-- Witness for C6 on the chain A → B → C: the duration is `24`. -/
theorem project_duration_eq_witness :
    (∃ paths, calculate chainActs 0 = Except.ok (paths,
      (([mkAct "B" none 8 [("C", 0)], mkAct "C" none 8 []].map fun a =>
          efD (finalState chainActs 0) a.task_code).foldl max
        (efD (finalState chainActs 0) "A")) -
      (([mkAct "B" none 8 [("C", 0)], mkAct "C" none 8 []].map fun a =>
          esD (finalState chainActs 0) a.task_code).foldl min
        (esD (finalState chainActs 0) "A")))) :=
  project_duration_eq (by decide) (by decide) (by decide) rfl

/-! ### Claim C5: critical paths are exactly the near-maximal source-to-sink paths -/

theorem lastMem {α : Type} : ∀ {l : List α} {a : α}, l.getLast? = some a → a ∈ l := by
  intro l
  induction l with
  | nil => intro a h; simp at h
  | cons b r ih =>
    intro a h
    cases r with
    | nil =>
      simp at h
      subst h
      exact List.mem_cons_self b []
    | cons c r2 =>
      rw [List.getLast?_cons_cons] at h
      exact List.mem_cons_of_mem b (ih h)

theorem contains_iff_mem {l : List String} {a : String} : l.contains a = true ↔ a ∈ l := by
  induction l with
  | nil => simp
  | cons b r ih =>
    rw [List.contains_cons, Bool.or_eq_true, beq_iff_eq, ih, List.mem_cons]

theorem isEmpty_false_of_ne {α : Type} {l : List α} (h : l ≠ []) : l.isEmpty = false := by
  cases l with
  | nil => exact absurd rfl h
  | cons a t => rfl

theorem foldl_max_le_of_mem : ∀ (l : List ℚ) (m x : ℚ), x ∈ l → x ≤ l.foldl max m := by
  intro l
  induction l with
  | nil => intro m x hx; exact absurd hx (List.not_mem_nil x)
  | cons y ys ih =>
    intro m x hx
    rw [List.foldl_cons]
    rcases List.mem_cons.1 hx with rfl | hmem
    · exact le_trans (le_max_right m x) (foldl_max_init_le ys (max m x))
    · exact ih (max m y) x hmem

theorem simplePathsAux_sound {es : List Edge} :
    ∀ (fuel : Nat) (visited : List String) (cur target : String) (p : List String),
      p ∈ simplePathsAux es fuel visited cur target → cur ∉ visited →
      p.head? = some cur ∧ p.getLast? = some target ∧ p.Chain' (EdgeRel es) ∧
        p.Nodup ∧ ∀ x ∈ p, x ∉ visited := by
  intro fuel
  induction fuel with
  | zero =>
    intro visited cur target p hp
    simp only [simplePathsAux] at hp
    exact absurd hp (List.not_mem_nil p)
  | succ f ih =>
    intro visited cur target p hp hcv
    simp only [simplePathsAux] at hp
    by_cases hct : cur = target
    · rw [if_pos hct] at hp
      rw [List.mem_singleton] at hp
      subst hp
      refine ⟨rfl, by simp [hct], List.chain'_singleton cur, List.nodup_singleton cur, ?_⟩
      intro x hx
      rw [List.mem_singleton] at hx
      subst hx
      exact hcv
    · rw [if_neg hct] at hp
      rw [List.mem_flatMap] at hp
      obtain ⟨m, hmf, hpm⟩ := hp
      rw [List.mem_map] at hpm
      obtain ⟨q, hq, rfl⟩ := hpm
      rw [List.mem_filter] at hmf
      obtain ⟨hms, hmb⟩ := hmf
      have hmnot : m ∉ cur :: visited := by
        intro hmem
        rw [← contains_iff_mem] at hmem
        rw [hmem] at hmb
        exact absurd hmb (by simp)
      obtain ⟨hhead, hlast, hchain, hnodup, hnotvis⟩ :=
        ih (cur :: visited) m target q hq hmnot
      have hqne : q ≠ [] := by
        intro h0
        rw [h0] at hhead
        exact absurd hhead (by simp)
      refine ⟨rfl, ?_, ?_, ?_, ?_⟩
      · obtain ⟨b, q2, rfl⟩ := List.exists_cons_of_ne_nil hqne
        rw [List.getLast?_cons_cons]
        exact hlast
      · rw [List.chain'_cons']
        refine ⟨?_, hchain⟩
        intro y hy
        rw [hhead] at hy
        simp at hy
        rw [← hy]
        exact mem_succsOf.1 hms
      · rw [List.nodup_cons]
        refine ⟨?_, hnodup⟩
        intro hcq
        exact (hnotvis cur hcq) (List.mem_cons_self cur visited)
      · intro x hx
        rcases List.mem_cons.1 hx with rfl | hxq
        · exact hcv
        · intro hxv
          exact (hnotvis x hxq) (List.mem_cons_of_mem cur hxv)

theorem simplePathsAux_complete {es : List Edge} :
    ∀ (p : List String) (fuel : Nat) (visited : List String) (cur target : String),
      p.head? = some cur → p.getLast? = some target → p.Chain' (EdgeRel es) →
      p.Nodup → (∀ x ∈ p, x ∉ visited) → p.length ≤ fuel →
      p ∈ simplePathsAux es fuel visited cur target := by
  intro p
  induction p with
  | nil =>
    intro fuel visited cur target hh
    exact absurd hh (by simp)
  | cons a q ih =>
    intro fuel visited cur target hh hl hch hnd hnv hlen
    have ha : a = cur := by
      rw [List.head?_cons] at hh
      exact Option.some.inj hh
    subst ha
    cases fuel with
    | zero => exact absurd hlen (by simp)
    | succ f =>
      simp only [simplePathsAux]
      cases q with
      | nil =>
        have hat : a = target := by
          simp at hl
          exact hl
        rw [if_pos hat]
        exact List.mem_singleton_self _
      | cons m q2 =>
        have hanq : a ∉ m :: q2 := (List.nodup_cons.1 hnd).1
        have hlt : (m :: q2).getLast? = some target := by
          rw [List.getLast?_cons_cons] at hl
          exact hl
        have hat : ¬ a = target := by
          intro h0
          have hmem : target ∈ m :: q2 := lastMem hlt
          rw [← h0] at hmem
          exact hanq hmem
        rw [if_neg hat]
        rw [List.mem_flatMap]
        refine ⟨m, ?_, ?_⟩
        · rw [List.mem_filter]
          refine ⟨mem_succsOf.2 (List.chain'_cons.1 hch).1, ?_⟩
          have hm1 : ¬ m ∈ a :: visited := by
            intro hmm
            rcases List.mem_cons.1 hmm with h1 | h2
            · exact hanq (List.mem_cons.2 (Or.inl h1.symm))
            · exact hnv m (List.mem_cons_of_mem a (List.mem_cons_self m q2)) h2
          cases hcb : (a :: visited).contains m
          · rfl
          · exact absurd (contains_iff_mem.1 hcb) hm1
        · rw [List.mem_map]
          refine ⟨m :: q2, ?_, rfl⟩
          refine ih f (a :: visited) m target rfl hlt (List.chain'_cons.1 hch).2
            (List.nodup_cons.1 hnd).2 ?_ ?_
          · intro x hx hxm
            rcases List.mem_cons.1 hxm with h1 | h2
            · rw [h1] at hx
              exact hanq hx
            · exact hnv x (List.mem_cons_of_mem a hx) h2
          · exact Nat.le_of_succ_le_succ hlen

theorem chain_mem_head_or_edge {es : List Edge} :
    ∀ (q : List String), q.Chain' (EdgeRel es) → ∀ x ∈ q,
      q.head? = some x ∨ ∃ u, EdgeRel es u x := by
  intro q
  induction q with
  | nil => intro _ x hx; exact absurd hx (List.not_mem_nil x)
  | cons a r ih =>
    intro hch x hx
    rcases List.mem_cons.1 hx with rfl | hxr
    · exact Or.inl rfl
    · cases r with
      | nil => exact absurd hxr (List.not_mem_nil x)
      | cons b r2 =>
        rcases ih (List.chain'_cons.1 hch).2 x hxr with hh | he
        · refine Or.inr ⟨a, ?_⟩
          have hbx : b = x := Option.some.inj hh
          rw [← hbx]
          exact (List.chain'_cons.1 hch).1
        · exact Or.inr he

theorem cssPath_subset {nodes : List String} {es : List Edge} {codes : List String}
    (hdst : ∀ e ∈ es, e.dst ∈ nodes) {q : List String}
    (hch : q.Chain' (EdgeRel (subEdgesOf es codes)))
    (hhd : ∃ s ∈ subStartsOf nodes es codes, q.head? = some s) :
    ∀ x ∈ q, x ∈ subNodesOf nodes codes := by
  intro x hx
  rcases chain_mem_head_or_edge q hch x hx with hh | ⟨u, hu⟩
  · obtain ⟨s, hs, hqs⟩ := hhd
    rw [hh] at hqs
    have hxs : x = s := Option.some.inj hqs
    rw [hxs]
    simp only [subStartsOf, List.mem_filter] at hs
    exact hs.1
  · obtain ⟨e, hee, hesrc, hedst⟩ := hasEdgeB_iff.1 hu
    simp only [subEdgesOf, List.mem_filter] at hee
    obtain ⟨hees, hcond⟩ := hee
    rw [Bool.and_eq_true] at hcond
    simp only [subNodesOf, List.mem_filter]
    rw [← hedst]
    exact ⟨hdst e hees, hcond.2⟩

theorem mem_allPathsOf {nodes : List String} {es : List Edge} {codes : List String}
    (hdst : ∀ e ∈ es, e.dst ∈ nodes) {q : List String} :
    q ∈ allPathsOf nodes es codes ↔ IsCriticalSourceSinkPath nodes es codes q := by
  constructor
  · intro hq
    simp only [allPathsOf, simplePaths, List.mem_flatMap] at hq
    obtain ⟨s, hs, t, ht, hpath⟩ := hq
    obtain ⟨hhead, hlast, hchain, hnodup, -⟩ :=
      simplePathsAux_sound (subNodesOf nodes codes).length [] s t q hpath
        (List.not_mem_nil s)
    exact ⟨hnodup, hchain, ⟨s, hs, hhead⟩, ⟨t, ht, hlast⟩⟩
  · rintro ⟨hnodup, hchain, ⟨s, hs, hhead⟩, ⟨t, ht, hlast⟩⟩
    have hsubset : ∀ x ∈ q, x ∈ subNodesOf nodes codes :=
      cssPath_subset hdst hchain ⟨s, hs, hhead⟩
    have hlen : q.length ≤ (subNodesOf nodes codes).length :=
      List.Subperm.length_le (List.Nodup.subperm hnodup fun x hx => hsubset x hx)
    simp only [allPathsOf, simplePaths, List.mem_flatMap]
    exact ⟨s, hs, t, ht, simplePathsAux_complete q (subNodesOf nodes codes).length [] s t
      hhead hlast hchain hnodup (fun x _ => List.not_mem_nil x) hlen⟩

theorem succ_in_suffix {nodes2 : List String} {es2 : List Edge} {lsub : List String}
    (hnd0 : nodes2.Nodup) (hl : topoSort nodes2 es2 = some lsub)
    (hdst : ∀ e ∈ es2, e.dst ∈ nodes2)
    {A B : List String} {n s : String} (hsplit : lsub = A ++ n :: B)
    (hs : s ∈ succsOf es2 n) : s ∈ B := by
  have hperm := topoSort_perm hl
  have hlnd : lsub.Nodup := hperm.symm.nodup hnd0
  have hedge : hasEdgeB es2 n s = true := mem_succsOf.1 hs
  have hsn : s ∈ nodes2 := by
    obtain ⟨e, hee, -, hedst⟩ := hasEdgeB_iff.1 hedge
    rw [← hedst]
    exact hdst e hee
  have hnl : n ∈ lsub := by
    rw [hsplit]
    exact List.mem_append_right A (List.mem_cons_self n B)
  have hnn : n ∈ nodes2 := hperm.subset hnl
  have hbefore : lsub.indexOf n < lsub.indexOf s := topoSort_before hnd0 hl hedge hnn hsn
  have hnA : n ∉ A := by
    rw [hsplit] at hlnd
    rcases List.nodup_append.1 hlnd with ⟨-, -, hdis⟩
    intro hna
    exact hdis hna (List.mem_cons_self n B)
  have hsl : s ∈ lsub := hperm.mem_iff.2 hsn
  rw [hsplit] at hsl
  rcases List.mem_append.1 hsl with hsA | hsnb
  · exfalso
    have hiS : lsub.indexOf s < A.length := by
      rw [hsplit, List.indexOf_append_of_mem hsA]
      exact List.indexOf_lt_length.2 hsA
    have hiN : lsub.indexOf n = A.length := by
      rw [hsplit, List.indexOf_append_of_not_mem hnA, List.indexOf_cons_self]
      omega
    omega
  · rcases List.mem_cons.1 hsnb with rfl | hsB
    · exact absurd hbefore (lt_irrefl _)
    · exact hsB

theorem walk_to_sink {nodes2 : List String} {es2 : List Edge} {lsub : List String}
    (hnd0 : nodes2.Nodup) (hl : topoSort nodes2 es2 = some lsub)
    (hdst : ∀ e ∈ es2, e.dst ∈ nodes2) :
    ∀ (k : Nat) (A B : List String) (n : String), lsub = A ++ n :: B → B.length ≤ k →
      ∃ (q : List String) (t : String), q.head? = some n ∧ q.getLast? = some t ∧
        q.Chain' (EdgeRel es2) ∧ q.Nodup ∧ (∀ x ∈ q, x ∈ n :: B) ∧
        (succsOf es2 t).isEmpty = true := by
  have hlnd : lsub.Nodup := (topoSort_perm hl).symm.nodup hnd0
  intro k
  induction k with
  | zero =>
    intro A B n hsplit hB
    have hB0 : B = [] := List.length_eq_zero.1 (Nat.le_zero.1 hB)
    subst hB0
    cases hE : (succsOf es2 n).isEmpty with
    | true =>
      exact ⟨[n], n, rfl, by simp, List.chain'_singleton n, List.nodup_singleton n,
        fun x hx => hx, hE⟩
    | false =>
      exfalso
      have hne : succsOf es2 n ≠ [] := by
        intro h0
        rw [h0] at hE
        simp at hE
      obtain ⟨s, hsmem⟩ := List.exists_mem_of_ne_nil _ hne
      exact absurd (succ_in_suffix hnd0 hl hdst hsplit hsmem) (List.not_mem_nil s)
  | succ k ih =>
    intro A B n hsplit hB
    cases hE : (succsOf es2 n).isEmpty with
    | true =>
      refine ⟨[n], n, rfl, by simp, List.chain'_singleton n, List.nodup_singleton n,
        ?_, hE⟩
      intro x hx
      rw [List.mem_singleton] at hx
      rw [hx]
      exact List.mem_cons_self n B
    | false =>
      have hne : succsOf es2 n ≠ [] := by
        intro h0
        rw [h0] at hE
        simp at hE
      obtain ⟨s, hsmem⟩ := List.exists_mem_of_ne_nil _ hne
      have hsB : s ∈ B := succ_in_suffix hnd0 hl hdst hsplit hsmem
      obtain ⟨B1, B2, hBsplit⟩ := List.append_of_mem hsB
      have hsplit2 : lsub = (A ++ n :: B1) ++ s :: B2 := by
        rw [hsplit, hBsplit]
        simp
      have hB2 : B2.length ≤ k := by
        rw [hBsplit] at hB
        simp at hB
        omega
      obtain ⟨q2, t, hq2h, hq2l, hq2c, hq2nd, hq2sub, hq2sink⟩ :=
        ih (A ++ n :: B1) B2 s hsplit2 hB2
      have hq2ne : q2 ≠ [] := by
        intro h0
        rw [h0] at hq2h
        exact absurd hq2h (by simp)
      have hnB : n ∉ B := by
        rw [hsplit] at hlnd
        rcases List.nodup_append.1 hlnd with ⟨-, hnb, -⟩
        exact (List.nodup_cons.1 hnb).1
      have hsB2sub : ∀ x ∈ s :: B2, x ∈ B := by
        intro x hx
        rw [hBsplit]
        rcases List.mem_cons.1 hx with rfl | hx2
        · exact List.mem_append_right B1 (List.mem_cons_self x B2)
        · exact List.mem_append_right B1 (List.mem_cons_of_mem s hx2)
      have hnq2 : n ∉ q2 := by
        intro h0
        exact hnB (hsB2sub n (hq2sub n h0))
      refine ⟨n :: q2, t, rfl, ?_, ?_, List.nodup_cons.2 ⟨hnq2, hq2nd⟩, ?_, hq2sink⟩
      · obtain ⟨b, q3, rfl⟩ := List.exists_cons_of_ne_nil hq2ne
        rw [List.getLast?_cons_cons]
        exact hq2l
      · rw [List.chain'_cons']
        refine ⟨?_, hq2c⟩
        intro y hy
        rw [hq2h] at hy
        simp at hy
        rw [← hy]
        exact mem_succsOf.1 hsmem
      · intro x hx
        rcases List.mem_cons.1 hx with rfl | hx2
        · exact List.mem_cons_self x B
        · exact List.mem_cons_of_mem n (hsB2sub x (hq2sub x hx2))

theorem subgraph_topoSort_some {nodes : List String} {es : List Edge} {codes : List String}
    (hnd : nodes.Nodup) (hsrc : ∀ e ∈ es, e.src ∈ nodes) (hdst : ∀ e ∈ es, e.dst ∈ nodes)
    (hac : has_cycles nodes es = false) :
    ∃ lsub, topoSort (subNodesOf nodes codes) (subEdgesOf es codes) = some lsub := by
  cases hts : topoSort (subNodesOf nodes codes) (subEdgesOf es codes) with
  | some l => exact ⟨l, rfl⟩
  | none =>
    exfalso
    obtain ⟨n, hn, htg⟩ := topoSort_none_cycle hts
    have hmono : ∀ u v : String, EdgeRel (subEdgesOf es codes) u v → EdgeRel es u v := by
      intro u v huv
      obtain ⟨e, hee, h1, h2⟩ := hasEdgeB_iff.1 huv
      have hees : e ∈ es := by
        simp only [subEdgesOf, List.mem_filter] at hee
        exact hee.1
      exact hasEdgeB_iff.2 ⟨e, hees, h1, h2⟩
    have htg2 : Relation.TransGen (EdgeRel es) n n := Relation.TransGen.mono hmono htg
    have hnn : n ∈ nodes := by
      simp only [subNodesOf, List.mem_filter] at hn
      exact hn.1
    have hcyc : has_cycles nodes es = true :=
      (has_cycles_iff_cycle hnd hsrc hdst).2 ⟨n, hnn, htg2⟩
    rw [hac] at hcyc
    exact Bool.false_ne_true hcyc

theorem allPathsOf_ne_nil {nodes : List String} {es : List Edge} {codes : List String}
    (hnd : nodes.Nodup) (hsrc : ∀ e ∈ es, e.src ∈ nodes) (hdst : ∀ e ∈ es, e.dst ∈ nodes)
    (hac : has_cycles nodes es = false)
    (hstart : subStartsOf nodes es codes ≠ []) :
    allPathsOf nodes es codes ≠ [] := by
  obtain ⟨s0, hs0⟩ := List.exists_mem_of_ne_nil _ hstart
  obtain ⟨lsub, hls⟩ := @subgraph_topoSort_some nodes es codes hnd hsrc hdst hac
  have hsubnd : (subNodesOf nodes codes).Nodup := List.Nodup.filter _ hnd
  have hsubdst : ∀ e ∈ subEdgesOf es codes, e.dst ∈ subNodesOf nodes codes := by
    intro e hee
    simp only [subEdgesOf, List.mem_filter] at hee
    obtain ⟨hees, hcond⟩ := hee
    rw [Bool.and_eq_true] at hcond
    simp only [subNodesOf, List.mem_filter]
    exact ⟨hdst e hees, hcond.2⟩
  have hperm := topoSort_perm hls
  have hs0sub : s0 ∈ subNodesOf nodes codes := by
    simp only [subStartsOf, List.mem_filter] at hs0
    exact hs0.1
  have hs0l : s0 ∈ lsub := hperm.mem_iff.2 hs0sub
  obtain ⟨A, B, hsplit⟩ := List.append_of_mem hs0l
  obtain ⟨q, t, hqh, hql, hqc, hqnd, hqsub, hqsink⟩ :=
    walk_to_sink hsubnd hls hsubdst B.length A B s0 hsplit le_rfl
  have hqnodes : ∀ x ∈ q, x ∈ subNodesOf nodes codes := by
    intro x hx
    have hxl : x ∈ lsub := by
      rcases List.mem_cons.1 (hqsub x hx) with rfl | hxB
      · exact hs0l
      · rw [hsplit]
        exact List.mem_append_right A (List.mem_cons_of_mem s0 hxB)
    exact hperm.subset hxl
  have ht : t ∈ subSinksOf nodes es codes := by
    simp only [subSinksOf, List.mem_filter]
    exact ⟨hqnodes t (lastMem hql), hqsink⟩
  have hqlen : q.length ≤ (subNodesOf nodes codes).length :=
    List.Subperm.length_le (List.Nodup.subperm hqnd fun x hx => hqnodes x hx)
  have hqmem : q ∈ allPathsOf nodes es codes := by
    simp only [allPathsOf, simplePaths, List.mem_flatMap]
    exact ⟨s0, hs0, t, ht, simplePathsAux_complete q (subNodesOf nodes codes).length [] s0 t
      hqh hql hqc hqnd (fun x _ => List.not_mem_nil x) hqlen⟩
  exact List.ne_nil_of_mem hqmem

theorem maxPathDuration_mem {acts : List Activity} {nodes : List String} {es : List Edge}
    {codes : List String} (h : allPathsOf nodes es codes ≠ []) :
    ∃ p ∈ allPathsOf nodes es codes,
      pathDuration acts p = maxPathDuration acts nodes es codes := by
  cases hap : allPathsOf nodes es codes with
  | nil => exact absurd hap h
  | cons p0 ps =>
    have hM : maxPathDuration acts nodes es codes =
        (ps.map (pathDuration acts)).foldl max (pathDuration acts p0) := by
      unfold maxPathDuration
      rw [hap]
      rfl
    rcases foldl_max_mem (ps.map (pathDuration acts)) (pathDuration acts p0) with he | hm
    · exact ⟨p0, List.mem_cons_self p0 ps, by rw [hM, he]⟩
    · rw [List.mem_map] at hm
      obtain ⟨p1, hp1, hd⟩ := hm
      exact ⟨p1, List.mem_cons_of_mem p0 hp1, by rw [hM]; exact hd⟩

theorem maxPathDuration_ge {acts : List Activity} {nodes : List String} {es : List Edge}
    {codes : List String} {p : List String} (hp : p ∈ allPathsOf nodes es codes) :
    pathDuration acts p ≤ maxPathDuration acts nodes es codes := by
  cases hap : allPathsOf nodes es codes with
  | nil =>
    rw [hap] at hp
    exact absurd hp (List.not_mem_nil p)
  | cons p0 ps =>
    have hM : maxPathDuration acts nodes es codes =
        (ps.map (pathDuration acts)).foldl max (pathDuration acts p0) := by
      unfold maxPathDuration
      rw [hap]
      rfl
    rw [hM]
    rw [hap] at hp
    rcases List.mem_cons.1 hp with rfl | hp2
    · exact foldl_max_init_le _ _
    · exact foldl_max_le_of_mem _ _ _ (List.mem_map_of_mem _ hp2)

theorem codeToAct_code_of_mem {acts : List Activity} {c : String}
    (h : c ∈ nodesOf acts) : (codeToAct acts c).task_code = c := by
  obtain ⟨a, ha, hc⟩ := actOf_isSome_of_mem h
  unfold codeToAct
  rw [ha]
  exact hc

theorem map_codeToAct_roundtrip {acts : List Activity} {q : List String}
    (h : ∀ x ∈ q, x ∈ nodesOf acts) :
    (q.map (codeToAct acts)).map Activity.task_code = q := by
  rw [List.map_map]
  have hcg : ∀ x ∈ q, (Activity.task_code ∘ codeToAct acts) x = x :=
    fun x hx => codeToAct_code_of_mem (h x hx)
  rw [List.map_congr_left hcg]
  exact List.map_id q

theorem allPaths_mem_nodes {nodes : List String} {es : List Edge} {codes : List String}
    (hdst : ∀ e ∈ es, e.dst ∈ nodes) {q : List String}
    (hq : q ∈ allPathsOf nodes es codes) : ∀ x ∈ q, x ∈ nodes := by
  intro x hx
  obtain ⟨hnd2, hch, hhd, -⟩ := (mem_allPathsOf hdst).1 hq
  have hsub := cssPath_subset hdst hch hhd x hx
  simp only [subNodesOf, List.mem_filter] at hsub
  exact hsub.1

/-- C5: on well-formed acyclic input whose induced critical subgraph has at
least one source and one sink, `calculate()` returns exactly those simple
source-to-sink paths of the critical subgraph whose summed duration is
within `0.01` hours of the maximum path duration found; that maximum is
attained by such a path and bounds the duration of every such path. -/
theorem critical_paths_near_max {acts : List Activity} {now : ℚ}
    (hnd : (nodesOf acts).Nodup)
    (hdst : ∀ e ∈ edgesOf acts, e.dst ∈ nodesOf acts)
    (hac : has_cycles (nodesOf acts) (edgesOf acts) = false)
    (hstart : subStartsOf (nodesOf acts) (edgesOf acts)
      ((identifyCritical acts (finalState acts now)).map (·.task_code)) ≠ [])
    (hsink : subSinksOf (nodesOf acts) (edgesOf acts)
      ((identifyCritical acts (finalState acts now)).map (·.task_code)) ≠ []) :
    calculate acts now = Except.ok
        (findCriticalPaths acts (edgesOf acts) (nodesOf acts)
          (identifyCritical acts (finalState acts now)),
        projectDuration acts (finalState acts now)) ∧
    (∀ q : List String,
      (∃ P ∈ findCriticalPaths acts (edgesOf acts) (nodesOf acts)
          (identifyCritical acts (finalState acts now)),
        P.map Activity.task_code = q) ↔
      (IsCriticalSourceSinkPath (nodesOf acts) (edgesOf acts)
          ((identifyCritical acts (finalState acts now)).map (·.task_code)) q ∧
        |pathDuration acts q - maxPathDuration acts (nodesOf acts) (edgesOf acts)
            ((identifyCritical acts (finalState acts now)).map (·.task_code))| <
          1 / 100)) ∧
    (∃ q, IsCriticalSourceSinkPath (nodesOf acts) (edgesOf acts)
        ((identifyCritical acts (finalState acts now)).map (·.task_code)) q ∧
      pathDuration acts q = maxPathDuration acts (nodesOf acts) (edgesOf acts)
        ((identifyCritical acts (finalState acts now)).map (·.task_code))) ∧
    (∀ q, IsCriticalSourceSinkPath (nodesOf acts) (edgesOf acts)
        ((identifyCritical acts (finalState acts now)).map (·.task_code)) q →
      pathDuration acts q ≤ maxPathDuration acts (nodesOf acts) (edgesOf acts)
        ((identifyCritical acts (finalState acts now)).map (·.task_code))) := by
  set crit := identifyCritical acts (finalState acts now) with hcrit
  set codes := crit.map (·.task_code) with hcodes
  have hsrc : ∀ e ∈ edgesOf acts, e.src ∈ nodesOf acts := fun e he => edgesOf_src_mem he
  have hallne : allPathsOf (nodesOf acts) (edgesOf acts) codes ≠ [] :=
    allPathsOf_ne_nil hnd hsrc hdst hac hstart
  have hcritne : crit.isEmpty = false := by
    refine isEmpty_false_of_ne ?_
    intro h0
    obtain ⟨s0, hs0⟩ := List.exists_mem_of_ne_nil _ hstart
    have hs0n : s0 ∈ subNodesOf (nodesOf acts) codes := by
      simp only [subStartsOf, List.mem_filter] at hs0
      exact hs0.1
    simp only [subNodesOf, List.mem_filter] at hs0n
    have hmem : s0 ∈ codes := contains_iff_mem.1 hs0n.2
    rw [hcodes, h0] at hmem
    simp at hmem
  have hcalc : calculate acts now = Except.ok
      (findCriticalPaths acts (edgesOf acts) (nodesOf acts) crit,
        projectDuration acts (finalState acts now)) := by
    unfold calculate
    rw [← hcrit, hac, hcritne]
    simp
  have h1 : (subStartsOf (nodesOf acts) (edgesOf acts) codes).isEmpty = false :=
    isEmpty_false_of_ne hstart
  have h2 : (subSinksOf (nodesOf acts) (edgesOf acts) codes).isEmpty = false :=
    isEmpty_false_of_ne hsink
  have h3 : (allPathsOf (nodesOf acts) (edgesOf acts) codes).isEmpty = false :=
    isEmpty_false_of_ne hallne
  have hfcp : findCriticalPaths acts (edgesOf acts) (nodesOf acts) crit =
      ((allPathsOf (nodesOf acts) (edgesOf acts) codes).filter fun p =>
          decide (|pathDuration acts p -
            maxPathDuration acts (nodesOf acts) (edgesOf acts) codes| < 1 / 100)).map
        fun p => p.map (codeToAct acts) := by
    unfold findCriticalPaths
    rw [← hcodes, h1, h2, h3]
    simp
  refine ⟨hcalc, ?_, ?_, ?_⟩
  · intro q
    constructor
    · rintro ⟨P, hP, hPq⟩
      rw [hfcp] at hP
      rw [List.mem_map] at hP
      obtain ⟨p, hpf, rfl⟩ := hP
      rw [List.mem_filter] at hpf
      obtain ⟨hpall, hpd⟩ := hpf
      have hq : q = p := by
        rw [← hPq]
        exact map_codeToAct_roundtrip (allPaths_mem_nodes hdst hpall)
      subst hq
      exact ⟨(mem_allPathsOf hdst).1 hpall, of_decide_eq_true hpd⟩
    · rintro ⟨hcss, hlt⟩
      have hqall : q ∈ allPathsOf (nodesOf acts) (edgesOf acts) codes :=
        (mem_allPathsOf hdst).2 hcss
      refine ⟨q.map (codeToAct acts), ?_, ?_⟩
      · rw [hfcp]
        rw [List.mem_map]
        exact ⟨q, List.mem_filter.2 ⟨hqall, decide_eq_true hlt⟩, rfl⟩
      · exact map_codeToAct_roundtrip (allPaths_mem_nodes hdst hqall)
  · obtain ⟨p, hpall, hpd⟩ :=
      @maxPathDuration_mem acts (nodesOf acts) (edgesOf acts) codes hallne
    exact ⟨p, (mem_allPathsOf hdst).1 hpall, hpd⟩
  · intro q hq
    exact maxPathDuration_ge ((mem_allPathsOf hdst).2 hq)

/-- Witness for C5 on the chain A → B → C, in which every activity is
critical: the returned critical paths are exactly the near-maximal simple
source-to-sink paths of the critical subgraph, the maximum path duration is
attained, and it bounds every such path. -/
theorem critical_paths_near_max_witness :
    calculate chainActs 0 = Except.ok
        (findCriticalPaths chainActs (edgesOf chainActs) (nodesOf chainActs)
          (identifyCritical chainActs (finalState chainActs 0)),
        projectDuration chainActs (finalState chainActs 0)) ∧
    (∀ q : List String,
      (∃ P ∈ findCriticalPaths chainActs (edgesOf chainActs) (nodesOf chainActs)
          (identifyCritical chainActs (finalState chainActs 0)),
        P.map Activity.task_code = q) ↔
      (IsCriticalSourceSinkPath (nodesOf chainActs) (edgesOf chainActs)
          ((identifyCritical chainActs (finalState chainActs 0)).map (·.task_code)) q ∧
        |pathDuration chainActs q - maxPathDuration chainActs (nodesOf chainActs)
            (edgesOf chainActs)
            ((identifyCritical chainActs (finalState chainActs 0)).map (·.task_code))| <
          1 / 100)) ∧
    (∃ q, IsCriticalSourceSinkPath (nodesOf chainActs) (edgesOf chainActs)
        ((identifyCritical chainActs (finalState chainActs 0)).map (·.task_code)) q ∧
      pathDuration chainActs q = maxPathDuration chainActs (nodesOf chainActs)
        (edgesOf chainActs)
        ((identifyCritical chainActs (finalState chainActs 0)).map (·.task_code))) ∧
    (∀ q, IsCriticalSourceSinkPath (nodesOf chainActs) (edgesOf chainActs)
        ((identifyCritical chainActs (finalState chainActs 0)).map (·.task_code)) q →
      pathDuration chainActs q ≤ maxPathDuration chainActs (nodesOf chainActs)
        (edgesOf chainActs)
        ((identifyCritical chainActs (finalState chainActs 0)).map (·.task_code))) :=
  critical_paths_near_max (by decide) (by decide) (by decide)
    (of_decide_eq_true (by with_unfolding_all rfl))
    (of_decide_eq_true (by with_unfolding_all rfl))

end XER
